import Mathlib

/-!
Verification of the artificial-genome library: a shallow embedding of the
gene scanner, regulatory-network builder, network-state transition, the
per-edge development automaton, the node-graph collapse and the path merger,
together with proofs of the specified properties.

Sources embedded here: `src/lib.rs` (scanner, network) and `src/main.rs`
(development automaton, graph builder, collapse, path search).  Machine
integers are modelled as `Nat`/`Int` (no arithmetic in the sources can
overflow on the inputs considered), `f32` lengths as `ℚ` (every length
operation in the source is multiplication/addition by dyadic constants),
panics (`assert!`) as `Except String`, and Rust slices as `List`.
-/

set_option autoImplicit false

universe u

variable {α : Type u}

/-- Message of the assertion `assert!(substr.len() > 0)` guarding both
substring routines in `lib.rs`. -/
def substrAssertMsg : String := "assertion failed: substr.len() > 0"

/-- First index at which `substr` occurs contiguously in `s`
(source: `locate_substr` in `lib.rs`; iterates over all windows of
length `substr.length` and returns the index of the first equal one;
the early return for `s.len() < substr.len()` is subsumed because a
too-short window can never equal `substr`).  The source asserts
`substr.len() > 0` before this search; the assertion is modelled by
`locate_checked` below, so the `substr = []` branch here is dead code. -/
def locate_substr [DecidableEq α] : List α → List α → Option Nat
  | [], p => if p.isEmpty then some 0 else none
  | a :: s, p =>
    if (a :: s).take p.length = p then some 0
    else (locate_substr s p).map (· + 1)

/-- Number of (possibly overlapping) occurrences of `substr` in `s`
(source: `count_substr` in `lib.rs`).  As with `locate_substr`, the
source's assertion is modelled by `count_checked` below. -/
def count_substr [DecidableEq α] : List α → List α → Nat
  | [], _ => 0
  | a :: s, p =>
    (if (a :: s).take p.length = p then 1 else 0) + count_substr s p

/-- Panic-aware wrapper of `locate_substr`: the source's
`assert!(substr.len() > 0)`. -/
def locate_checked [DecidableEq α] (s p : List α) : Except String (Option Nat) :=
  if p.length = 0 then .error substrAssertMsg else .ok (locate_substr s p)

/-- Panic-aware wrapper of `count_substr`: the source's
`assert!(substr.len() > 0)`. -/
def count_checked [DecidableEq α] (s p : List α) : Except String Nat :=
  if p.length = 0 then .error substrAssertMsg else .ok (count_substr s p)

/-- The pattern `p` matches contiguously at index `i` of `s`.  Specification
vocabulary for the claims about the substring search. -/
def matchAt [DecidableEq α] (s p : List α) (i : Nat) : Prop :=
  (s.drop i).take p.length = p

instance [DecidableEq α] (s p : List α) (i : Nat) : Decidable (matchAt s p i) := by
  unfold matchAt; infer_instance

/-- Gene record: a regulatory region and a coding region, both slices of the
genome (source: `Gene` in `lib.rs`; the coding region field is called `gene`
there). -/
structure Gene (α : Type u) where
  regulatory_region : List α
  gene : List α
deriving DecidableEq

/-- Gene product: the coding region mapped element-wise through the
alphabet's successor operation (source: `Gene::product`). -/
def Gene.product (g : Gene α) (succ : α → α) : List α :=
  g.gene.map succ

/-- State of the lazy gene scanner (source: `GeneIterator` in `lib.rs`). -/
structure GeneIterator (α : Type u) where
  length_of_gene : Nat
  sequence : List α
  promoter : List α
deriving DecidableEq

/-- One step of the gene scanner (source: `GeneIterator::next`).  Locates the
promoter in the unconsumed remainder; on a match at `pos` it cuts the
regulatory region (everything before `pos`) and the coding region (the
`length_of_gene` symbols after the promoter), consuming everything up to the
end of the coding region; an incomplete trailing coding region or a failed
search ends the scan.  The `Except` layer carries the panic of
`locate_substr`'s assertion for an empty promoter. -/
def GeneIterator.next [DecidableEq α] (it : GeneIterator α) :
    Except String (Option (Gene α × GeneIterator α)) :=
  match locate_checked it.sequence it.promoter with
  | .error e => .error e
  | .ok (some pos) =>
    let gene_start := pos + it.promoter.length
    let gene_end := gene_start + it.length_of_gene
    if it.sequence.length < gene_end then
      .ok none
    else
      .ok (some (⟨it.sequence.take pos, (it.sequence.drop gene_start).take it.length_of_gene⟩,
        { it with sequence := it.sequence.drop gene_end }))
  | .ok none => .ok none

/-- A genome: a string of bases (source: `Genome` in `lib.rs`). -/
structure Genome (α : Type u) where
  genome : List α

/-- Create the gene scanner (source: `Genome::iter_genes`).  Note that the
source performs no validation here: it only packs the three fields. -/
def Genome.iter_genes (g : Genome α) (promoter : List α) (length_of_gene : Nat) :
    GeneIterator α :=
  ⟨length_of_gene, g.genome, promoter⟩

/-- Fuel-indexed orbit of the scanner: the list of genes obtained by calling
`next` repeatedly.  A fuel of `sequence.length` is always sufficient because
every produced gene consumes at least the promoter. -/
def genes_from [DecidableEq α] : Nat → GeneIterator α → List (Gene α)
  | 0, _ => []
  | fuel + 1, it =>
    match it.next with
    | .ok (some (g, it')) => g :: genes_from fuel it'
    | _ => []

/-- All genes produced by the scanner. -/
def GeneIterator.genes [DecidableEq α] (it : GeneIterator α) : List (Gene α) :=
  genes_from it.sequence.length it

/-- Absolute start offsets of the gene spans determined by a list of
relative promoter positions: each gene's span starts where the previous
gene's coding region ended; `w` is promoter length plus gene length. -/
def cursors (w : Nat) : List Nat → List Nat
  | [] => []
  | pos :: rest => 0 :: (cursors w rest).map (· + (pos + w))

/-- Regulatory sign wrapped around the stored weight (source:
`ProteinRegulator` in `lib.rs`, a newtype over `i32`). -/
structure ProteinRegulator where
  val : Int
deriving DecidableEq

/-- Constructor `ProteinRegulator::enhance`. -/
def ProteinRegulator.enhance : ProteinRegulator := ⟨1⟩

/-- Constructor `ProteinRegulator::inhibit`. -/
def ProteinRegulator.inhibit : ProteinRegulator := ⟨-1⟩

/-- Incoming regulatory edge of the gene network (source: `Edge` in
`lib.rs`). -/
structure Edge where
  src : Nat
  weight : ProteinRegulator
deriving DecidableEq

/-- Node of the gene network, holding its incoming edges (source: `Node` in
`lib.rs`). -/
structure Node where
  incoming_edges : List Edge
deriving DecidableEq

/-- The gene regulatory network (source: `GeneNetwork` in `lib.rs`). -/
structure GeneNetwork where
  nodes : List Node
deriving DecidableEq

/-- Construct an edgeless network (source: `GeneNetwork::new`). -/
def GeneNetwork.new (num_nodes : Nat) : GeneNetwork :=
  ⟨List.replicate num_nodes ⟨[]⟩⟩

/-- Add an incoming edge to node `dst` (source: `GeneNetwork::add_edge`).
The source asserts `src < nodes.len()` and `dst < nodes.len()`; every call
site passes gene indices, which satisfy both, so the assertions can never
fire and are not modelled (`List.set` is a no-op out of range). -/
def GeneNetwork.add_edge (net : GeneNetwork) (src dst : Nat)
    (weight : ProteinRegulator) : GeneNetwork :=
  ⟨net.nodes.set dst ⟨(net.nodes.getD dst ⟨[]⟩).incoming_edges ++ [⟨src, weight⟩]⟩⟩

/-- Inner loop of `Genome::construct_network`: for one source gene, iterate
`dst` over all genes, count the source's product in the destination's
regulatory region (through the assertion-carrying `count_checked`) and add
an edge whenever the count is positive, weighted by sign times count. -/
def add_edges_for_src [DecidableEq α] (src : Nat) (product : List α)
    (regulator : ProteinRegulator) :
    List (Gene α) → Nat → GeneNetwork → Except String GeneNetwork
  | [], _, net => .ok net
  | gene2 :: rest, dst, net =>
    match count_checked gene2.regulatory_region product with
    | .error e => .error e
    | .ok factor =>
      add_edges_for_src src product regulator rest (dst + 1)
        (if 0 < factor then net.add_edge src dst ⟨regulator.val * (factor : Int)⟩
         else net)

/-- Outer loop of `Genome::construct_network`: iterate `src` over all genes,
computing each gene's product and its regulation sign once, then run the
inner loop over all destinations. -/
def add_all_gene_edges [DecidableEq α] (succ : α → α)
    (protein_regulation : List α → ProteinRegulator) (genes : List (Gene α)) :
    List (Gene α) → Nat → GeneNetwork → Except String GeneNetwork
  | [], _, net => .ok net
  | gene :: rest, src, net =>
    let product := gene.product succ
    let regulator := protein_regulation product
    match add_edges_for_src src product regulator genes 0 net with
    | .error e => .error e
    | .ok net' => add_all_gene_edges succ protein_regulation genes rest (src + 1) net'

/-- Body of `Genome::construct_network` once the genes are collected: `none`
when no genes were found, otherwise the double loop over (src, dst) pairs on
a fresh network with one node per gene. -/
def build_network [DecidableEq α] (succ : α → α)
    (protein_regulation : List α → ProteinRegulator) (genes : List (Gene α)) :
    Except String (Option GeneNetwork) :=
  if genes.length = 0 then .ok none
  else (add_all_gene_edges succ protein_regulation genes genes 0
    (GeneNetwork.new genes.length)).map some

/-- Full `Genome::construct_network`: collect the genes by scanning, then
build the network from them.  (The scan itself can only panic for an empty
promoter, the situation covered by the claim about `iter_genes`.) -/
def Genome.construct_network [DecidableEq α] (g : Genome α) (succ : α → α)
    (promoter : List α) (length_of_gene : Nat)
    (protein_regulation : List α → ProteinRegulator) :
    Except String (Option GeneNetwork) :=
  build_network succ protein_regulation
    (GeneIterator.genes (g.iter_genes promoter length_of_gene))

/-- Specification-side shape of a node's incoming-edge list after network
construction: one edge per source gene whose product occurs at least once in
the destination's regulatory region, in source order, weighted by the
regulation sign times the occurrence count. -/
def expected_incoming [DecidableEq α] (succ : α → α)
    (protein_regulation : List α → ProteinRegulator) (genes : List (Gene α))
    (dst : Nat) : List (Gene α) → Nat → List Edge
  | [], _ => []
  | g :: rest, src =>
    (let prod := g.product succ
     let cnt := count_substr (genes.getD dst ⟨[], []⟩).regulatory_region prod
     if 0 < cnt then [⟨src, ⟨(protein_regulation prod).val * (cnt : Int)⟩⟩] else []) ++
    expected_incoming succ protein_regulation genes dst rest (src + 1)

/-- Network activation state: one bit per network node (source:
`GeneNetworkState` in `lib.rs`, backed by a `FixedBitSet` of capacity
`nodes.len()`).  `contains` of an out-of-range index is `false`, matching
`FixedBitSet::contains`. -/
structure GeneNetworkState where
  state : List Bool
deriving DecidableEq

/-- Bit query (source: `FixedBitSet::contains`). -/
def GeneNetworkState.contains (s : GeneNetworkState) (i : Nat) : Bool :=
  s.state.getD i false

/-- Set bit `i` (source: `FixedBitSet::insert`; all call sites pass in-range
indices, so the out-of-range panic cannot fire; `List.set` is a no-op
there). -/
def GeneNetworkState.insert (s : GeneNetworkState) (i : Nat) : GeneNetworkState :=
  ⟨s.state.set i true⟩

/-- Write bit `i` (source: `FixedBitSet::set`; in-range at all call sites). -/
def GeneNetworkState.setBit (s : GeneNetworkState) (i : Nat) (b : Bool) :
    GeneNetworkState :=
  ⟨s.state.set i b⟩

/-- Fresh all-inactive state of the network's size (source:
`GeneNetwork::new_state`). -/
def GeneNetwork.new_state (net : GeneNetwork) : GeneNetworkState :=
  ⟨List.replicate net.nodes.length false⟩

/-- Sum of the incoming-edge weights of a node, counting only edges whose
source node is active (source: `Node::sum_edges`: each edge contributes
`factor * weight` with factor 1 for an active source and 0 otherwise). -/
def Node.sum_edges (node : Node) (network_state : GeneNetworkState) : Int :=
  node.incoming_edges.foldl
    (fun sum edge =>
      sum + (if network_state.contains edge.src then 1 else 0) * edge.weight.val) 0

/-- Loop of `Edge::transition_state` in `main.rs`: enable node `i` of the new
state whenever its active-incoming weight sum is strictly positive. -/
def set_active_nodes (network_state : GeneNetworkState) :
    List Node → Nat → GeneNetworkState → GeneNetworkState
  | [], _, new_state => new_state
  | node :: rest, i, new_state =>
    set_active_nodes network_state rest (i + 1)
      (if 0 < node.sum_edges network_state then new_state.insert i else new_state)

/-- State transition (source: `Edge::transition_state` in `main.rs`): starts
from an empty new state of the network's size and activates exactly the
nodes whose incoming sum over the old state is positive.  A pure function of
`(network, old state)`. -/
def transition_state (network : GeneNetwork) (network_state : GeneNetworkState) :
    GeneNetworkState :=
  set_active_nodes network_state network.nodes 0 network.new_state

/-- Rule-bit index for the differentiation flag (source: `main.rs`). -/
def EDGE_DIFFERENTIATION : Nat := 0

/-- Rule-bit index for split (source: `main.rs`). -/
def EDGE_SPLIT : Nat := 1

/-- Rule-bit index for duplicate (source: `main.rs`). -/
def EDGE_DUPLICATE : Nat := 2

/-- Rule-bit index for swap (source: `main.rs`). -/
def EDGE_SWAP : Nat := 3

/-- Rule-bit index for grow (source: `main.rs`). -/
def EDGE_GROW : Nat := 4

/-- Rule-bit index for shrink (source: `main.rs`). -/
def EDGE_SHRINK : Nat := 5

/-- Rule-bit index for the type counter (source: `main.rs`). -/
def EDGE_TYPE : Nat := 6

/-- Resize factor of the grow/shrink rules (source: `RESIZE_FACTOR: f32 =
0.25`, exact in `ℚ`). -/
def RESIZE_FACTOR : ℚ := 1/4

/-- Edge of the graph under construction (source: `Edge` in `main.rs`; named
`GEdge` here because the network's incoming edge already uses the name
`Edge`). -/
structure GEdge where
  src_node : Nat
  dst_node : Nat
  length : ℚ
  type_count : Nat
  network_state : GeneNetworkState
deriving DecidableEq

/-- One development step of a single edge (source: `Edge::develop` in
`main.rs`): first transition the embedded state, then apply the rules of all
active nodes in the fixed source order split → duplicate → swap → grow →
shrink → type, returning the rewritten edge, the next free node id and the
list of child edges created this step (split child first).  The split child
takes half the parent's length (`0.5 * length`) and the parent halves its
own (`length /= 2.0`); both children get the parent's differentiation flag
inverted. -/
def develop (network : GeneNetwork) (e0 : GEdge) (next_node_id : Nat) :
    GEdge × Nat × List GEdge :=
  let e := { e0 with network_state := transition_state network e0.network_state }
  let r1 :=
    if e.network_state.contains EDGE_SPLIT then
      let new_node := next_node_id
      let child_state := e.network_state.setBit EDGE_DIFFERENTIATION
        (! e.network_state.contains EDGE_DIFFERENTIATION)
      let new_edge : GEdge :=
        ⟨new_node, e.dst_node, (1/2 : ℚ) * e.length, e.type_count, child_state⟩
      ({ e with dst_node := new_node, length := e.length / 2 }, next_node_id + 1, [new_edge])
    else (e, next_node_id, [])
  let e1 := r1.1
  let r2 :=
    if e1.network_state.contains EDGE_DUPLICATE then
      let child_state := e1.network_state.setBit EDGE_DIFFERENTIATION
        (! e1.network_state.contains EDGE_DIFFERENTIATION)
      let new_edge : GEdge :=
        ⟨e1.dst_node, e1.src_node, e1.length, e1.type_count, child_state⟩
      (e1, [new_edge])
    else (e1, [])
  let e2 := r2.1
  let e3 := if e2.network_state.contains EDGE_SWAP then
      { e2 with src_node := e2.dst_node, dst_node := e2.src_node } else e2
  let e4 := if e3.network_state.contains EDGE_GROW then
      { e3 with length := e3.length + RESIZE_FACTOR * e3.length } else e3
  let e5 := if e4.network_state.contains EDGE_SHRINK then
      { e4 with length := e4.length - RESIZE_FACTOR * e4.length } else e4
  let e6 := if e5.network_state.contains EDGE_TYPE then
      { e5 with type_count := e5.type_count + 1 } else e5
  (e6, r1.2.1, r1.2.2 ++ r2.2)

/-- The graph builder (source: `GraphBuilder` in `main.rs`). -/
structure GraphBuilder where
  edges : List GEdge
  next_node_id : Nat
  network : GeneNetwork

/-- Source: `GraphBuilder::new` — a single zygote edge 0→1 of length 1 and
type count 0 carrying the caller-supplied initial state; ids 0 and 1 are
taken, so the counter starts at 2. -/
def GraphBuilder.new (network : GeneNetwork) (zygote : GeneNetworkState) :
    GraphBuilder :=
  ⟨[⟨0, 1, 1, 0, zygote⟩], 2, network⟩

/-- Loop body of `GraphBuilder::next`: develop every existing edge in list
order, threading the node-id counter and collecting the new edges
separately. -/
def develop_edges (network : GeneNetwork) :
    List GEdge → Nat → List GEdge × Nat × List GEdge
  | [], nid => ([], nid, [])
  | e :: rest, nid =>
    let r := develop network e nid
    let rr := develop_edges network rest r.2.1
    (r.1 :: rr.1, rr.2.1, r.2.2 ++ rr.2.2)

/-- One generation (source: `GraphBuilder::next`): develop all current edges,
then append the newly created edges at the end of the edge list. -/
def GraphBuilder.next (gb : GraphBuilder) : GraphBuilder :=
  let r := develop_edges gb.network gb.edges gb.next_node_id
  { gb with edges := r.1 ++ r.2.2, next_node_id := r.2.1 }

/-- Default edge value used for out-of-range `getD` lookups; the proofs only
ever look up in-range indices. -/
def dGEdge : GEdge := ⟨0, 0, 0, 0, ⟨[]⟩⟩

/-- Node info of the collapsed node graph (source: `NodeInfo` in
`main.rs`). -/
structure NodeInfo where
  length : ℚ
  type_count : Nat
deriving DecidableEq

/-- The collapsed node graph (source: `NodeGraph` in `main.rs`): every
surviving edge becomes a node; `edges` models the `BTreeSet<(usize, usize)>`
of unique directed connections. -/
structure NodeGraph where
  nodes : List NodeInfo
  edges : Finset (Nat × Nat)

/-- Lexicographic order on `(usize, usize)` keys: the iteration order of the
`BTreeMap`/`BTreeSet` keys in `main.rs`. -/
def pairLt (a b : Nat × Nat) : Prop :=
  a.1 < b.1 ∨ (a.1 = b.1 ∧ a.2 < b.2)

instance (a b : Nat × Nat) : Decidable (pairLt a b) := by
  unfold pairLt; infer_instance

/-- One iteration of the deduplication loop of
`GraphBuilder::into_node_graph`: `selected_edges.entry(key).or_insert(i)`
followed by the `type_count` comparison that overwrites the stored index on
a strictly greater count.  The `BTreeMap<(usize, usize), usize>` is modelled
as an association list kept sorted in key order; `edges` is the full
original edge list, used to look up the stored index's type count. -/
def updateSelected (edges : List GEdge) (key : Nat × Nat) (i : Nat) :
    List ((Nat × Nat) × Nat) → List ((Nat × Nat) × Nat)
  | [] => [(key, i)]
  | (k, j) :: rest =>
    if pairLt key k then (key, i) :: (k, j) :: rest
    else if key = k then
      if (edges.getD j dGEdge).type_count < (edges.getD i dGEdge).type_count
      then (k, i) :: rest else (k, j) :: rest
    else (k, j) :: updateSelected edges key i rest

/-- Deduplication loop of `GraphBuilder::into_node_graph` over all edges
with their indices. -/
def collect_selected (edges : List GEdge) :
    List GEdge → Nat → List ((Nat × Nat) × Nat) → List ((Nat × Nat) × Nat)
  | [], _, m => m
  | e :: rest, i, m =>
    collect_selected edges rest (i + 1)
      (updateSelected edges (e.src_node, e.dst_node) i m)

/-- The surviving edges: iterate the deduplication map in its sorted key
order and materialise the stored indices (source: the
`for (_, &edge_idx) in selected_edges.iter()` loop filling `e`). -/
def selected_survivors (edges : List GEdge) : List GEdge :=
  (collect_selected edges edges 0 []).map (fun p => edges.getD p.2 dGEdge)

/-- Outgoing-index map `node_out_edges` of `into_node_graph`: maps each node
id to the indices, in increasing order, of the surviving edges originating
there (the `BTreeMap<usize, Vec<usize>>` built by pushing `i` in order). -/
def build_out_map : List GEdge → Nat → (Nat → List Nat) → (Nat → List Nat)
  | [], _, m => m
  | e :: rest, i, m =>
    build_out_map rest (i + 1)
      (fun d => if d = e.src_node then m d ++ [i] else m d)

/-- Inner connection loop of `into_node_graph`: insert `(i, out_i)` for
every out-index of the destination. -/
def insert_connections (i : Nat) :
    List Nat → Finset (Nat × Nat) → Finset (Nat × Nat)
  | [], s => s
  | j :: rest, s => insert_connections i rest (insert (i, j) s)

/-- Outer connection loop of `into_node_graph`: connect every surviving edge
`i` to all out-indices of its `dst_node`. -/
def connect_all :
    List GEdge → Nat → (Nat → List Nat) → Finset (Nat × Nat) → Finset (Nat × Nat)
  | [], _, _, s => s
  | e :: rest, i, m, s =>
    connect_all rest (i + 1) m (insert_connections i (m e.dst_node) s)

/-- Collapse of the built edge list into a node graph (source:
`GraphBuilder::into_node_graph`): deduplicate parallel edges keeping the
highest type count (earliest on ties), make each surviving edge a node, and
connect node `i` to node `j` exactly when edge `j` starts at edge `i`'s
destination. -/
def into_node_graph (edges : List GEdge) : NodeGraph :=
  let e := selected_survivors edges
  let outm := build_out_map e 0 (fun _ => [])
  ⟨e.map (fun ed => ⟨ed.length, ed.type_count⟩), connect_all e 0 outm ∅⟩

/-- The (src, dst) pair of the edge at index `j`. -/
def edgeKey (edges : List GEdge) (j : Nat) : Nat × Nat :=
  ((edges.getD j dGEdge).src_node, (edges.getD j dGEdge).dst_node)

/-- Specification predicate for the deduplication: index `idx` holds the
surviving edge for (src, dst) pair `key` — the earliest index attaining the
maximal type count among all edges with that pair. -/
def IsBest (edges : List GEdge) (key : Nat × Nat) (idx : Nat) : Prop :=
  idx < edges.length ∧
  edgeKey edges idx = key ∧
  (∀ j, j < edges.length → edgeKey edges j = key →
    (edges.getD j dGEdge).type_count ≤ (edges.getD idx dGEdge).type_count) ∧
  (∀ j, j < idx → edgeKey edges j = key →
    (edges.getD j dGEdge).type_count < (edges.getD idx dGEdge).type_count)

/-- Truncated form of `IsBest` considering only the first `t` edges; the
invariant of the deduplication loop. -/
def IsBestUpTo (edges : List GEdge) (t : Nat) (key : Nat × Nat) (idx : Nat) : Prop :=
  idx < t ∧
  edgeKey edges idx = key ∧
  (∀ j, j < t → edgeKey edges j = key →
    (edges.getD j dGEdge).type_count ≤ (edges.getD idx dGEdge).type_count) ∧
  (∀ j, j < idx → edgeKey edges j = key →
    (edges.getD j dGEdge).type_count < (edges.getD idx dGEdge).type_count)

/-- Recorded path of the path search (source: `FoundPath` in `main.rs`). -/
structure FoundPath where
  target_node : Nat
  length : ℚ
deriving DecidableEq

/-- All node ids mentioned in the neighbourhood table; recursion of the path
search stays inside this finite universe, which bounds its depth. -/
def nodesOf (neighborhood : List (List Nat)) : Finset Nat :=
  neighborhood.foldr (fun l acc => l.foldr insert acc) ∅

/-- Longest neighbour list of the table. -/
def maxNb (neighborhood : List (List Nat)) : Nat :=
  neighborhood.foldr (fun l acc => max l.length acc) 0

/-- Number of universe nodes not yet visited: the decreasing measure of the
path search. -/
def unvisited_count (neighborhood : List (List Nat)) (visited : Finset Nat) : Nat :=
  ((nodesOf neighborhood).filter (fun x => x ∉ visited)).card

/-- Fuel-indexed body of the path search (source: `path_finder` in
`main.rs`), processing the remaining neighbour list of the current node: a
neighbour that is a target records `(target, current_length)` and that
branch stops; an unvisited non-target neighbour is marked visited, recursed
into with its length added to the accumulator, and unmarked on backtrack
(modelled by passing the extended visited set only to the recursive call);
a visited non-target is skipped.  The fuel only drives the termination of
the embedding; `path_finder` below always supplies enough. -/
def pfAux (neighborhood : List (List Nat)) (lengths : List ℚ) (targets : Finset Nat) :
    Nat → List Nat → ℚ → Finset Nat → List FoundPath → List FoundPath
  | 0, _, _, _, paths => paths
  | _ + 1, [], _, _, paths => paths
  | fuel + 1, ni :: rest, current_length, visited, paths =>
    let paths' :=
      if ni ∈ targets then paths ++ [⟨ni, current_length⟩]
      else if ni ∉ visited then
        pfAux neighborhood lengths targets fuel (neighborhood.getD ni [])
          (current_length + lengths.getD ni 0) (insert ni visited) paths
      else paths
    pfAux neighborhood lengths targets fuel rest current_length visited paths'

/-- The path search (source: `path_finder` in `main.rs`), supplied with fuel
that is provably sufficient: every recursion shrinks the set of unvisited
universe nodes. -/
def path_finder (neighborhood : List (List Nat)) (lengths : List ℚ)
    (targets : Finset Nat) (current_node : Nat) (current_length : ℚ)
    (visited : Finset Nat) (paths : List FoundPath) : List FoundPath :=
  pfAux neighborhood lengths targets
    ((neighborhood.getD current_node []).length +
      ((nodesOf neighborhood).card + 1) * (maxNb neighborhood + 1))
    (neighborhood.getD current_node []) current_length visited paths

/-- Node of the structured graph (source: `StructuredNode` in `main.rs`). -/
structure StructuredNode where
  length : ℚ
  type_count : Nat
  connections : List FoundPath
deriving DecidableEq

/-- The structured graph (source: `StructuredGraph` in `main.rs`): the
`BTreeMap<usize, StructuredNode>` is modelled as an association list in
ascending key order. -/
structure StructuredGraph where
  nodes : List (Nat × StructuredNode)

/-- Lookup in the structured graph's node map. -/
def StructuredGraph.find (sg : StructuredGraph) (i : Nat) : Option StructuredNode :=
  List.lookup i sg.nodes

/-- Ascending iteration of a finite set of naturals — the model of iterating
a `BTreeSet<usize>`: the naturals up to the set's maximum, filtered by
membership. -/
def sortedNatList (s : Finset Nat) : List Nat :=
  (List.range (s.fold max 0 (fun x => x) + 1)).filter (fun x => x ∈ s)

/-- Neighbour lists of `into_structured_graph`: for node `i`, the
destinations of connections leaving `i`, in ascending order (the per-key
`BTreeSet` of the `neighbors` map, read back into `neighborhood`). -/
def neighborhood_of (g : NodeGraph) : List (List Nat) :=
  (List.range g.nodes.length).map
    (fun i => sortedNatList ((g.edges.filter (fun p => p.1 = i)).image Prod.snd))

/-- Processing-node set of `into_structured_graph`: nodes whose type count
reaches the threshold. -/
def processing_nodes_of (g : NodeGraph) (type_processing : Nat) : Finset Nat :=
  (Finset.range g.nodes.length).filter
    (fun i => type_processing ≤ (g.nodes.getD i ⟨0, 0⟩).type_count)

/-- The processing nodes in ascending iteration order (the `BTreeSet`
iteration of the source). -/
def processing_list_of (g : NodeGraph) (type_processing : Nat) : List Nat :=
  (List.range g.nodes.length).filter
    (fun i => type_processing ≤ (g.nodes.getD i ⟨0, 0⟩).type_count)

/-- Collapse to the structured graph (source:
`NodeGraph::into_structured_graph`): classify the nodes by the type-count
threshold, then run the path search from every processing node (in
ascending order, with a cleared visited set, zero accumulated length and an
empty record list) over the connective nodes, storing the recorded
connections. -/
def NodeGraph.into_structured_graph (g : NodeGraph) (type_processing : Nat) :
    StructuredGraph :=
  ⟨(processing_list_of g type_processing).map
    (fun pnode =>
      (pnode,
        ⟨(g.nodes.getD pnode ⟨0, 0⟩).length, (g.nodes.getD pnode ⟨0, 0⟩).type_count,
         path_finder (neighborhood_of g) (g.nodes.map (fun n => n.length))
           (processing_nodes_of g type_processing) pnode 0 ∅ []⟩))⟩

/-- Specification of a recorded path: from node `c` with accumulated length
`len` and visited set `vis`, the search reaches a target and records `p` —
either a direct neighbour is a target (recording the current accumulated
length), or an unvisited connective (non-target) neighbour is traversed,
adding that neighbour's length to the accumulator.  This mirrors the branch
structure of the source's `path_finder`. -/
inductive Reaches (neighborhood : List (List Nat)) (lengths : List ℚ)
    (targets : Finset Nat) : Nat → ℚ → Finset Nat → FoundPath → Prop
  | hit {c : Nat} {len : ℚ} {vis : Finset Nat} {ni : Nat} :
      ni ∈ neighborhood.getD c [] → ni ∈ targets →
      Reaches neighborhood lengths targets c len vis ⟨ni, len⟩
  | step {c : Nat} {len : ℚ} {vis : Finset Nat} {ni : Nat} {p : FoundPath} :
      ni ∈ neighborhood.getD c [] → ni ∉ targets → ni ∉ vis →
      Reaches neighborhood lengths targets ni (len + lengths.getD ni 0)
        (insert ni vis) p →
      Reaches neighborhood lengths targets c len vis p

/-- List-level form of `Reaches`: some neighbour in `L` either is a target
hit or starts a traversal that reaches one. -/
def ReachesVia (neighborhood : List (List Nat)) (lengths : List ℚ)
    (targets : Finset Nat) (L : List Nat) (len : ℚ) (vis : Finset Nat)
    (p : FoundPath) : Prop :=
  ∃ ni ∈ L, (ni ∈ targets ∧ p = ⟨ni, len⟩) ∨
    (ni ∉ targets ∧ ni ∉ vis ∧
      Reaches neighborhood lengths targets ni (len + lengths.getD ni 0)
        (insert ni vis) p)

/-- The demonstration alphabet of `base4.rs`: `Base4(u8)` with values `0..4`
and cyclic successor `(v + 1) & 3`. -/
abbrev Base4 := Fin 4

/-- Constant `B0` of `base4.rs`. -/
def b0 : Base4 := 0

/-- Constant `B1` of `base4.rs`. -/
def b1 : Base4 := 1

/-- Constant `B2` of `base4.rs`. -/
def b2 : Base4 := 2

/-- Constant `B3` of `base4.rs`. -/
def b3 : Base4 := 3

/-- Successor of `base4.rs`: `(v + 1) & 3`, i.e. cyclic increment mod 4. -/
def base4_succ (x : Base4) : Base4 := x + 1

/-! ### Theorems -/

theorem matchAt_cons_succ [DecidableEq α] (a : α) (s p : List α) (q : Nat) :
    matchAt (a :: s) p (q + 1) ↔ matchAt s p q := Iff.rfl

theorem matchAt_cons_zero [DecidableEq α] (a : α) (s p : List α) :
    matchAt (a :: s) p 0 ↔ (a :: s).take p.length = p := Iff.rfl

theorem locate_substr_eq_some [DecidableEq α] (s p : List α) (pos : Nat) :
    locate_substr s p = some pos ↔
      matchAt s p pos ∧ ∀ q, q < pos → ¬ matchAt s p q := by
  induction s generalizing pos with
  | nil =>
    rcases p with _ | ⟨b, p⟩
    · rw [show locate_substr ([] : List α) ([] : List α) = some 0 from rfl]
      simp only [Option.some.injEq]
      constructor
      · rintro rfl
        exact ⟨rfl, fun q hq => absurd hq (Nat.not_lt_zero q)⟩
      · rintro ⟨-, hmin⟩
        by_contra hne
        have hpos : 0 < pos := Nat.pos_of_ne_zero (fun h => hne h.symm)
        exact hmin 0 hpos rfl
    · constructor
      · intro h
        exact absurd h (by simp [locate_substr])
      · rintro ⟨hm, -⟩
        exact absurd hm (by simp [matchAt])
  | cons a s ih =>
    simp only [locate_substr]
    by_cases h : (a :: s).take p.length = p
    · simp only [if_pos h, Option.some.injEq]
      constructor
      · rintro rfl
        exact ⟨h, fun q hq => absurd hq (Nat.not_lt_zero q)⟩
      · rintro ⟨-, hmin⟩
        by_contra hne
        have hpos : 0 < pos := Nat.pos_of_ne_zero (fun hh => hne hh.symm)
        exact hmin 0 hpos h
    · simp only [if_neg h, Option.map_eq_some']
      constructor
      · rintro ⟨q, hq, rfl⟩
        obtain ⟨hm, hmin⟩ := (ih q).mp hq
        refine ⟨hm, ?_⟩
        intro r hr
        rcases r with _ | r
        · exact h
        · exact hmin r (Nat.lt_of_succ_lt_succ hr)
      · rintro ⟨hm, hmin⟩
        rcases pos with _ | pos
        · exact absurd hm h
        · refine ⟨pos, (ih pos).mpr ⟨hm, fun r hr => ?_⟩, rfl⟩
          exact hmin (r + 1) (Nat.succ_lt_succ hr)

theorem locate_substr_eq_none [DecidableEq α] (s p : List α) :
    locate_substr s p = none ↔ ∀ q, ¬ matchAt s p q := by
  constructor
  · intro h q hq
    -- the least matching position would make `locate_substr` return `some`.
    have hex : ∃ r, matchAt s p r := ⟨q, hq⟩
    have hsome := (locate_substr_eq_some s p (Nat.find hex)).mpr
      ⟨Nat.find_spec hex, fun r hr => Nat.find_min hex hr⟩
    rw [h] at hsome
    cases hsome
  · intro h
    cases hlt : locate_substr s p with
    | none => rfl
    | some pos => exact absurd ((locate_substr_eq_some s p pos).mp hlt).1 (h pos)

/-- C1: for every genome sequence, non-empty promoter and gene length, one
call to the gene scanner's `next` behaves as specified: if the promoter
matches first at index `pos` of the unconsumed remainder, the returned Gene's
regulatory region is the prefix before `pos` and its coding region is the
`length_of_gene` symbols immediately after the promoter (the remainder past
the coding region becoming the new scanner state); if fewer than
`length_of_gene` symbols remain after the promoter, no Gene is returned; if
the promoter does not occur, the sequence ends. -/
theorem claim_C1 [DecidableEq α] (it : GeneIterator α) (hp : it.promoter ≠ []) :
    (∀ pos, matchAt it.sequence it.promoter pos →
      (∀ q, q < pos → ¬ matchAt it.sequence it.promoter q) →
      (if it.sequence.length < pos + it.promoter.length + it.length_of_gene then
        it.next = .ok none
      else
        it.next = .ok (some
          (⟨it.sequence.take pos,
            (it.sequence.drop (pos + it.promoter.length)).take it.length_of_gene⟩,
           ⟨it.length_of_gene,
            it.sequence.drop (pos + it.promoter.length + it.length_of_gene),
            it.promoter⟩)) ∧
        ((it.sequence.drop (pos + it.promoter.length)).take it.length_of_gene).length =
          it.length_of_gene)) ∧
    ((∀ q, ¬ matchAt it.sequence it.promoter q) → it.next = .ok none) := by
  have hplen : it.promoter.length ≠ 0 := fun h => hp (List.eq_nil_of_length_eq_zero h)
  constructor
  · intro pos hm hmin
    have hloc : locate_substr it.sequence it.promoter = some pos :=
      (locate_substr_eq_some _ _ _).mpr ⟨hm, hmin⟩
    have hbound : pos + it.promoter.length ≤ it.sequence.length := by
      by_contra hlt
      push_neg at hlt
      have := congrArg List.length hm
      rw [List.length_take, List.length_drop] at this
      omega
    by_cases hle : it.sequence.length < pos + it.promoter.length + it.length_of_gene
    · rw [if_pos hle]
      simp only [GeneIterator.next, locate_checked, if_neg hplen, hloc]
      rw [if_pos (by omega)]
    · rw [if_neg hle]
      push_neg at hle
      refine ⟨?_, ?_⟩
      · simp only [GeneIterator.next, locate_checked, if_neg hplen, hloc]
        rw [if_neg (by omega)]
      · rw [List.length_take, List.length_drop]
        omega
  · intro hnone
    have hloc : locate_substr it.sequence it.promoter = none :=
      (locate_substr_eq_none _ _).mpr hnone
    simp only [GeneIterator.next, locate_checked, if_neg hplen, hloc]

/-- Witness for C1 at the spec's own scenario: sequence `01011111`,
promoter `0101`, gene length 4 yields an empty regulatory region and coding
region `1111`, consuming the whole sequence. -/
theorem claim_C1_witness :
    (GeneIterator.next ⟨4, [b0, b1, b0, b1, b1, b1, b1, b1], [b0, b1, b0, b1]⟩ :
        Except String (Option (Gene Base4 × GeneIterator Base4))) =
      .ok (some (⟨[], [b1, b1, b1, b1]⟩, ⟨4, [], [b0, b1, b0, b1]⟩)) := by
  have h := (claim_C1 (⟨4, [b0, b1, b0, b1, b1, b1, b1, b1], [b0, b1, b0, b1]⟩ :
      GeneIterator Base4) (by decide)).1 0 (by decide) (by decide)
  rw [if_neg (by decide)] at h
  exact h.1

/-- C3 (corrected): a zero-length promoter is not rejected when the scanner
is created — `iter_genes` performs no validation and unconditionally returns
the packed scanner state — but at the first call to `next`, where
`locate_substr`'s assertion fails.  This holds for every genome and gene
length. -/
theorem claim_C3_amended [DecidableEq α] (g : Genome α) (L : Nat) :
    Genome.iter_genes g [] L = ⟨L, g.genome, []⟩ ∧
    GeneIterator.next (Genome.iter_genes g [] L) = .error substrAssertMsg := by
  refine ⟨rfl, ?_⟩
  simp [GeneIterator.next, Genome.iter_genes, locate_checked]

/-- Counterexample to C3 as stated: for the concrete genome `01` and gene
length 4, creating the scan with an empty promoter does not report any error
— it returns an ordinary scanner state — and the panic only surfaces at the
first `next` call. -/
theorem claim_C3_counterexample :
    Genome.iter_genes (⟨[b0, b1]⟩ : Genome Base4) [] 4 = ⟨4, [b0, b1], []⟩ ∧
    GeneIterator.next (Genome.iter_genes (⟨[b0, b1]⟩ : Genome Base4) [] 4) =
      .error substrAssertMsg := by
  exact ⟨rfl, by simp [GeneIterator.next, Genome.iter_genes, locate_checked]⟩

theorem cursors_length (w : Nat) (l : List Nat) : (cursors w l).length = l.length := by
  induction l with
  | nil => rfl
  | cons pos rest ih => simp [cursors, ih]

theorem getD_map_add (l : List Nat) (a k : Nat) (h : k < l.length) :
    (l.map (· + a)).getD k 0 = l.getD k 0 + a := by
  rw [List.getD_eq_getElem?_getD, List.getD_eq_getElem?_getD, List.getElem?_map,
    List.getElem?_eq_getElem h]
  rfl

theorem cursors_getD_zero (w : Nat) (l : List Nat) : (cursors w l).getD 0 0 = 0 := by
  cases l with
  | nil => rfl
  | cons pos rest => rfl

theorem cursors_succ (w : Nat) (l : List Nat) (k : Nat) (hk : k + 1 < l.length) :
    (cursors w l).getD (k + 1) 0 = (cursors w l).getD k 0 + l.getD k 0 + w := by
  induction l generalizing k with
  | nil => simp at hk
  | cons pos rest ih =>
    cases k with
    | zero =>
      have hrest : rest ≠ [] := by
        intro h; rw [h] at hk; simp at hk
      have h0 : 0 < rest.length := List.length_pos.mpr hrest
      have h0c : 0 < (cursors w rest).length := by rw [cursors_length]; exact h0
      simp only [cursors, List.getD_cons_succ, List.getD_cons_zero]
      rw [getD_map_add _ _ _ h0c, cursors_getD_zero]
      omega
    | succ k' =>
      have hk' : k' + 1 < rest.length := by simpa using hk
      have hkc : k' + 1 < (cursors w rest).length := by rw [cursors_length]; exact hk'
      have hkc' : k' < (cursors w rest).length := Nat.lt_of_succ_lt hkc
      simp only [cursors, List.getD_cons_succ]
      rw [getD_map_add _ _ _ hkc, getD_map_add _ _ _ hkc', ih k' hk']
      omega

theorem cursors_mono (w : Nat) (l : List Nat) (i j : Nat) (hij : i < j)
    (hj : j < l.length) :
    (cursors w l).getD i 0 + l.getD i 0 + w ≤ (cursors w l).getD j 0 := by
  induction l generalizing i j with
  | nil => simp at hj
  | cons pos rest ih =>
    cases j with
    | zero => omega
    | succ j' =>
      have hj' : j' < rest.length := by simpa using hj
      have hjc : j' < (cursors w rest).length := by rw [cursors_length]; exact hj'
      cases i with
      | zero =>
        simp only [cursors, List.getD_cons_zero, List.getD_cons_succ]
        rw [getD_map_add _ _ _ hjc]
        omega
      | succ i' =>
        have hij' : i' < j' := Nat.lt_of_succ_lt_succ hij
        have hic : i' < (cursors w rest).length := by
          rw [cursors_length]; exact Nat.lt_trans hij' hj'
        simp only [cursors, List.getD_cons_succ]
        rw [getD_map_add _ _ _ hjc, getD_map_add _ _ _ hic]
        have := ih i' j' hij' hj'
        omega

theorem next_eq_some [DecidableEq α] (L : Nat) (s p : List α) (pos : Nat)
    (hplen : p.length ≠ 0) (hloc : locate_substr s p = some pos)
    (hfit : ¬ s.length < pos + p.length + L) :
    (⟨L, s, p⟩ : GeneIterator α).next =
      .ok (some (⟨s.take pos, (s.drop (pos + p.length)).take L⟩,
        ⟨L, s.drop (pos + p.length + L), p⟩)) := by
  simp only [GeneIterator.next, locate_checked, if_neg hplen, hloc]
  rw [if_neg (by omega)]

theorem next_eq_none_of_short [DecidableEq α] (L : Nat) (s p : List α) (pos : Nat)
    (hplen : p.length ≠ 0) (hloc : locate_substr s p = some pos)
    (hshort : s.length < pos + p.length + L) :
    (⟨L, s, p⟩ : GeneIterator α).next = .ok none := by
  simp only [GeneIterator.next, locate_checked, if_neg hplen, hloc]
  rw [if_pos (by omega)]

theorem next_eq_none_of_nolocate [DecidableEq α] (L : Nat) (s p : List α)
    (hplen : p.length ≠ 0) (hloc : locate_substr s p = none) :
    (⟨L, s, p⟩ : GeneIterator α).next = .ok none := by
  simp only [GeneIterator.next, locate_checked, if_neg hplen, hloc]

theorem genes_from_spans [DecidableEq α] (p : List α) (L : Nat) (hp : p ≠ []) :
    ∀ fuel s, s.length ≤ fuel →
      ∃ posL : List Nat,
        (genes_from fuel (⟨L, s, p⟩ : GeneIterator α)).length = posL.length ∧
        ∀ k, k < posL.length →
          ((genes_from fuel (⟨L, s, p⟩ : GeneIterator α)).getD k ⟨[], []⟩ =
            ⟨(s.drop ((cursors (p.length + L) posL).getD k 0)).take (posL.getD k 0),
             (s.drop ((cursors (p.length + L) posL).getD k 0 + posL.getD k 0 + p.length)).take L⟩) ∧
          matchAt s p ((cursors (p.length + L) posL).getD k 0 + posL.getD k 0) ∧
          (cursors (p.length + L) posL).getD k 0 + posL.getD k 0 + p.length + L ≤ s.length := by
  have hplen : p.length ≠ 0 := fun h => hp (List.eq_nil_of_length_eq_zero h)
  intro fuel
  induction fuel with
  | zero =>
    intro s hs
    exact ⟨[], rfl, fun k hk => absurd hk (Nat.not_lt_zero k)⟩
  | succ fuel ih =>
    intro s hs
    cases hloc : locate_substr s p with
    | none =>
      refine ⟨[], ?_, fun k hk => absurd hk (Nat.not_lt_zero k)⟩
      simp [genes_from, next_eq_none_of_nolocate L s p hplen hloc]
    | some pos =>
      by_cases hshort : s.length < pos + p.length + L
      · refine ⟨[], ?_, fun k hk => absurd hk (Nat.not_lt_zero k)⟩
        simp [genes_from, next_eq_none_of_short L s p pos hplen hloc hshort]
      · have hnext := next_eq_some L s p pos hplen hloc hshort
        have hgf : genes_from (fuel + 1) (⟨L, s, p⟩ : GeneIterator α) =
            (⟨s.take pos, (s.drop (pos + p.length)).take L⟩ : Gene α) ::
              genes_from fuel (⟨L, s.drop (pos + p.length + L), p⟩ : GeneIterator α) := by
          simp [genes_from, hnext]
        have hD1 : 1 ≤ pos + p.length + L := by
          have : 0 < p.length := Nat.pos_of_ne_zero hplen
          omega
        have hs' : (s.drop (pos + p.length + L)).length ≤ fuel := by
          rw [List.length_drop]; omega
        obtain ⟨posL', hlen', hprops'⟩ := ih (s.drop (pos + p.length + L)) hs'
        refine ⟨pos :: posL', ?_, ?_⟩
        · rw [hgf]; simpa using hlen'
        · intro k hk
          have hmatch0 : matchAt s p pos := ((locate_substr_eq_some s p pos).mp hloc).1
          cases k with
          | zero =>
            rw [hgf]
            simp only [List.getD_cons_zero, cursors_getD_zero, Nat.zero_add, List.drop_zero]
            exact ⟨by trivial, hmatch0, by omega⟩
          | succ k' =>
            have hk' : k' < posL'.length := by simpa using hk
            have hkc' : k' < (cursors (p.length + L) posL').length := by
              rw [cursors_length]; exact hk'
            obtain ⟨hslice', hmatch', hbound'⟩ := hprops' k' hk'
            rw [hgf]
            simp only [List.getD_cons_succ, cursors, getD_map_add _ _ _ hkc']
            rw [List.length_drop] at hbound'
            set c' := (cursors (p.length + L) posL').getD k' 0 with hc'
            set q' := posL'.getD k' 0 with hq'
            refine ⟨?_, ?_, ?_⟩
            · have e1 : s.drop (c' + (pos + (p.length + L))) =
                  (s.drop (pos + p.length + L)).drop c' := by
                rw [List.drop_drop]; congr 1; omega
              have e2 : s.drop (c' + (pos + (p.length + L)) + q' + p.length) =
                  (s.drop (pos + p.length + L)).drop (c' + q' + p.length) := by
                rw [List.drop_drop]; congr 1; omega
              rw [e1, e2]
              exact hslice'
            · have e3 : s.drop (c' + (pos + (p.length + L)) + q') =
                  (s.drop (pos + p.length + L)).drop (c' + q') := by
                rw [List.drop_drop]; congr 1; omega
              unfold matchAt at hmatch' ⊢
              rw [e3]
              exact hmatch'
            · omega

/-- C2: the genes produced by the scanner occupy pairwise disjoint,
left-to-right spans of the genome: writing `c k` for the start of gene `k`'s
regulatory region and `pos k` for the offset of its promoter occurrence
within its span, each gene's regions are exactly the genome slices at those
offsets, a promoter match is anchored there, the first span starts at 0,
each span starts exactly where the previous coding region ends, the whole
span of gene `i` ends no later than the start of any later gene `j` (so no
genome symbol belongs to two returned regions), and the promoter anchors are
strictly increasing (so no promoter occurrence anchors two genes). -/
theorem claim_C2 [DecidableEq α] (s p : List α) (L : Nat) (hp : p ≠ []) :
    ∃ posL : List Nat,
      (GeneIterator.genes (⟨L, s, p⟩ : GeneIterator α)).length = posL.length ∧
      (∀ k, k < posL.length →
        ((GeneIterator.genes (⟨L, s, p⟩ : GeneIterator α)).getD k ⟨[], []⟩ =
          ⟨(s.drop ((cursors (p.length + L) posL).getD k 0)).take (posL.getD k 0),
           (s.drop ((cursors (p.length + L) posL).getD k 0 + posL.getD k 0 + p.length)).take L⟩) ∧
        matchAt s p ((cursors (p.length + L) posL).getD k 0 + posL.getD k 0) ∧
        (cursors (p.length + L) posL).getD k 0 + posL.getD k 0 + p.length + L ≤ s.length) ∧
      (cursors (p.length + L) posL).getD 0 0 = 0 ∧
      (∀ k, k + 1 < posL.length →
        (cursors (p.length + L) posL).getD (k + 1) 0 =
          (cursors (p.length + L) posL).getD k 0 + posL.getD k 0 + p.length + L) ∧
      (∀ i j, i < j → j < posL.length →
        (cursors (p.length + L) posL).getD i 0 + posL.getD i 0 + p.length + L ≤
          (cursors (p.length + L) posL).getD j 0) ∧
      (∀ i j, i < j → j < posL.length →
        (cursors (p.length + L) posL).getD i 0 + posL.getD i 0 <
          (cursors (p.length + L) posL).getD j 0 + posL.getD j 0) := by
  obtain ⟨posL, hlen, hprops⟩ := genes_from_spans p L hp s.length s (Nat.le_refl _)
  have hplen : 0 < p.length := List.length_pos.mpr hp
  refine ⟨posL, hlen, hprops, cursors_getD_zero _ _, ?_, ?_, ?_⟩
  · intro k hk
    have := cursors_succ (p.length + L) posL k hk
    omega
  · intro i j hij hj
    have := cursors_mono (p.length + L) posL i j hij hj
    omega
  · intro i j hij hj
    have hmono := cursors_mono (p.length + L) posL i j hij hj
    omega

/-- Witness for C2 at a concrete scan: genome `0101 2 0101 33 22`, promoter
`0101`, gene length 2 (two genes, second span starting where the first coding
region ends). -/
theorem claim_C2_witness :
    ∃ posL : List Nat,
      (GeneIterator.genes (⟨2, [b0, b1, b0, b1, b2, b0, b1, b0, b1, b3, b3, b2, b2],
          [b0, b1, b0, b1]⟩ : GeneIterator Base4)).length = posL.length ∧
      (∀ k, k < posL.length →
        ((GeneIterator.genes (⟨2, [b0, b1, b0, b1, b2, b0, b1, b0, b1, b3, b3, b2, b2],
            [b0, b1, b0, b1]⟩ : GeneIterator Base4)).getD k ⟨[], []⟩ =
          ⟨(([b0, b1, b0, b1, b2, b0, b1, b0, b1, b3, b3, b2, b2] : List Base4).drop
              ((cursors 6 posL).getD k 0)).take (posL.getD k 0),
           (([b0, b1, b0, b1, b2, b0, b1, b0, b1, b3, b3, b2, b2] : List Base4).drop
              ((cursors 6 posL).getD k 0 + posL.getD k 0 + 4)).take 2⟩) ∧
        matchAt ([b0, b1, b0, b1, b2, b0, b1, b0, b1, b3, b3, b2, b2] : List Base4)
          [b0, b1, b0, b1] ((cursors 6 posL).getD k 0 + posL.getD k 0) ∧
        (cursors 6 posL).getD k 0 + posL.getD k 0 + 4 + 2 ≤ 13) ∧
      (cursors 6 posL).getD 0 0 = 0 ∧
      (∀ k, k + 1 < posL.length →
        (cursors 6 posL).getD (k + 1) 0 =
          (cursors 6 posL).getD k 0 + posL.getD k 0 + 4 + 2) ∧
      (∀ i j, i < j → j < posL.length →
        (cursors 6 posL).getD i 0 + posL.getD i 0 + 4 + 2 ≤ (cursors 6 posL).getD j 0) ∧
      (∀ i j, i < j → j < posL.length →
        (cursors 6 posL).getD i 0 + posL.getD i 0 <
          (cursors 6 posL).getD j 0 + posL.getD j 0) :=
  claim_C2 [b0, b1, b0, b1, b2, b0, b1, b0, b1, b3, b3, b2, b2] [b0, b1, b0, b1] 2
    (by decide)

theorem add_edge_length (net : GeneNetwork) (src dst : Nat) (w : ProteinRegulator) :
    (net.add_edge src dst w).nodes.length = net.nodes.length := by
  simp [GeneNetwork.add_edge]

theorem add_edge_incoming (net : GeneNetwork) (src dst : Nat) (w : ProteinRegulator)
    (d : Nat) :
    ((net.add_edge src dst w).nodes.getD d ⟨[]⟩).incoming_edges =
      (net.nodes.getD d ⟨[]⟩).incoming_edges ++
        (if d = dst ∧ dst < net.nodes.length then [⟨src, w⟩] else []) := by
  simp only [GeneNetwork.add_edge]
  rw [List.getD_eq_getElem?_getD, List.getElem?_set]
  by_cases hd : dst = d
  · subst hd
    by_cases hlt : dst < net.nodes.length
    · rw [if_pos rfl, if_pos hlt, if_pos ⟨rfl, hlt⟩]
      rfl
    · rw [if_pos rfl, if_neg hlt, if_neg (fun h => hlt h.2), List.append_nil,
        List.getD_eq_getElem?_getD, List.getElem?_eq_none (by omega)]
  · rw [if_neg hd, if_neg (fun h => hd h.1.symm), List.append_nil,
      List.getD_eq_getElem?_getD]

theorem new_network_length (n : Nat) : (GeneNetwork.new n).nodes.length = n := by
  simp [GeneNetwork.new]

theorem new_network_incoming (n d : Nat) :
    ((GeneNetwork.new n).nodes.getD d ⟨[]⟩).incoming_edges = [] := by
  simp only [GeneNetwork.new, List.getD_eq_getElem?_getD, List.getElem?_replicate]
  by_cases h : d < n
  · rw [if_pos h]; rfl
  · rw [if_neg h]; rfl

theorem add_edges_for_src_ok [DecidableEq α] (src : Nat) (prod : List α)
    (r : ProteinRegulator) (hprod : prod.length ≠ 0) :
    ∀ (dstList : List (Gene α)) (d0 : Nat) (net : GeneNetwork),
      ∃ net', add_edges_for_src src prod r dstList d0 net = .ok net' ∧
        net'.nodes.length = net.nodes.length ∧
        ∀ d, (net'.nodes.getD d ⟨[]⟩).incoming_edges =
          (net.nodes.getD d ⟨[]⟩).incoming_edges ++
          (if d0 ≤ d ∧ d < d0 + dstList.length ∧ d < net.nodes.length ∧
              0 < count_substr ((dstList.getD (d - d0) ⟨[], []⟩).regulatory_region) prod
           then [⟨src, ⟨r.val *
              (count_substr ((dstList.getD (d - d0) ⟨[], []⟩).regulatory_region) prod : Int)⟩⟩]
           else []) := by
  intro dstList
  induction dstList with
  | nil =>
    intro d0 net
    refine ⟨net, rfl, rfl, fun d => ?_⟩
    rw [if_neg (by rintro ⟨h1, h2, -, -⟩; simp at h2; omega), List.append_nil]
  | cons g2 rest ih =>
    intro d0 net
    have hcc : count_checked g2.regulatory_region prod =
        .ok (count_substr g2.regulatory_region prod) := by
      simp [count_checked, hprod]
    obtain ⟨net', heq, hlen, hinc⟩ := ih (d0 + 1)
      (if 0 < count_substr g2.regulatory_region prod then
        net.add_edge src d0 ⟨r.val * (count_substr g2.regulatory_region prod : Int)⟩
       else net)
    have hlen1 : (if 0 < count_substr g2.regulatory_region prod then
        net.add_edge src d0 ⟨r.val * (count_substr g2.regulatory_region prod : Int)⟩
       else net).nodes.length = net.nodes.length := by
      by_cases hf : 0 < count_substr g2.regulatory_region prod
      · rw [if_pos hf, add_edge_length]
      · rw [if_neg hf]
    refine ⟨net', ?_, by rw [hlen, hlen1], fun d => ?_⟩
    · simp only [add_edges_for_src, hcc]
      exact heq
    · rw [hinc d]
      have h1 : ((if 0 < count_substr g2.regulatory_region prod then
            net.add_edge src d0 ⟨r.val * (count_substr g2.regulatory_region prod : Int)⟩
          else net).nodes.getD d ⟨[]⟩).incoming_edges =
          (net.nodes.getD d ⟨[]⟩).incoming_edges ++
            (if d = d0 ∧ d0 < net.nodes.length ∧ 0 < count_substr g2.regulatory_region prod
             then [⟨src, ⟨r.val * (count_substr g2.regulatory_region prod : Int)⟩⟩]
             else []) := by
        by_cases hf : 0 < count_substr g2.regulatory_region prod
        · rw [if_pos hf, add_edge_incoming]
          congr 1
          by_cases hd : d = d0 ∧ d0 < net.nodes.length
          · rw [if_pos hd, if_pos ⟨hd.1, hd.2, hf⟩]
          · rw [if_neg hd, if_neg (fun h => hd ⟨h.1, h.2.1⟩)]
        · rw [if_neg hf, if_neg (fun h => hf h.2.2), List.append_nil]
      rw [h1, List.append_assoc]
      congr 1
      simp only [hlen1]
      by_cases hd : d = d0
      · subst hd
        have hrest : ¬ (d + 1 ≤ d ∧ d < d + 1 + rest.length ∧ d < net.nodes.length ∧
            0 < count_substr ((rest.getD (d - (d + 1)) ⟨[], []⟩).regulatory_region) prod) :=
          fun h => absurd h.1 (by omega)
        rw [if_neg hrest, List.append_nil, Nat.sub_self, List.getD_cons_zero]
        by_cases h : d < net.nodes.length ∧ 0 < count_substr g2.regulatory_region prod
        · rw [if_pos ⟨rfl, h.1, h.2⟩,
            if_pos ⟨Nat.le_refl d, by simp only [List.length_cons]; omega, h.1, h.2⟩]
        · rw [if_neg (fun hh => h ⟨hh.2.1, hh.2.2⟩),
            if_neg (fun hh => h ⟨hh.2.2.1, hh.2.2.2⟩)]
      · rw [if_neg (fun h => hd h.1), List.nil_append]
        by_cases hle : d0 + 1 ≤ d
        · have hsub : d - d0 = (d - (d0 + 1)) + 1 := by omega
          rw [hsub, List.getD_cons_succ]
          refine if_congr ⟨fun h => ⟨by omega, by simp only [List.length_cons]; omega, h.2.2⟩,
            fun h => ⟨by omega, by simp only [List.length_cons] at h; omega, h.2.2⟩⟩ rfl rfl
        · have hr1 : ¬ (d0 + 1 ≤ d ∧ d < d0 + 1 + rest.length ∧ d < net.nodes.length ∧
              0 < count_substr ((rest.getD (d - (d0 + 1)) ⟨[], []⟩).regulatory_region) prod) :=
            fun h => hle h.1
          have hr2 : ¬ (d0 ≤ d ∧ d < d0 + (g2 :: rest).length ∧ d < net.nodes.length ∧
              0 < count_substr (((g2 :: rest).getD (d - d0) ⟨[], []⟩).regulatory_region) prod) :=
            fun h => hle (by omega)
          rw [if_neg hr1, if_neg hr2]

theorem add_all_gene_edges_ok [DecidableEq α] (succ : α → α)
    (reg : List α → ProteinRegulator) (genes : List (Gene α)) :
    ∀ (srcList : List (Gene α)) (s0 : Nat) (net : GeneNetwork),
      (∀ g ∈ srcList, (g.product succ).length ≠ 0) →
      net.nodes.length = genes.length →
      ∃ net', add_all_gene_edges succ reg genes srcList s0 net = .ok net' ∧
        net'.nodes.length = genes.length ∧
        ∀ d, d < genes.length →
          (net'.nodes.getD d ⟨[]⟩).incoming_edges =
            (net.nodes.getD d ⟨[]⟩).incoming_edges ++
              expected_incoming succ reg genes d srcList s0 := by
  intro srcList
  induction srcList with
  | nil =>
    intro s0 net hprods hN
    exact ⟨net, rfl, hN, fun d _ => by
      rw [expected_incoming, List.append_nil]⟩
  | cons g rest ih =>
    intro s0 net hprods hN
    have hprod : (g.product succ).length ≠ 0 := hprods g (List.mem_cons_self g rest)
    obtain ⟨net1, heq1, hlen1, hinc1⟩ :=
      add_edges_for_src_ok s0 (g.product succ) (reg (g.product succ)) hprod genes 0 net
    obtain ⟨net', heq', hlen', hinc'⟩ := ih (s0 + 1) net1
      (fun g' hg' => hprods g' (List.mem_cons_of_mem g hg')) (by rw [hlen1, hN])
    refine ⟨net', ?_, hlen', fun d hd => ?_⟩
    · simp only [add_all_gene_edges, heq1]
      exact heq'
    · rw [hinc' d hd, hinc1 d, List.append_assoc]
      rw [expected_incoming]
      congr 1
      congr 1
      rw [Nat.sub_zero]
      by_cases hc : 0 < count_substr ((genes.getD d ⟨[], []⟩).regulatory_region)
          (g.product succ)
      · rw [if_pos ⟨Nat.zero_le d, by omega, by omega, hc⟩]
        simp only [hc, if_true]
      · rw [if_neg (fun h => hc h.2.2.2)]
        simp only [hc, if_false]

theorem mem_expected_incoming [DecidableEq α] (succ : α → α)
    (reg : List α → ProteinRegulator) (genes : List (Gene α)) (d : Nat) :
    ∀ (srcList : List (Gene α)) (s0 : Nat) (e : Edge),
      e ∈ expected_incoming succ reg genes d srcList s0 ↔
        ∃ t, t < srcList.length ∧
          0 < count_substr ((genes.getD d ⟨[], []⟩).regulatory_region)
                ((srcList.getD t ⟨[], []⟩).product succ) ∧
          e = ⟨s0 + t, ⟨(reg ((srcList.getD t ⟨[], []⟩).product succ)).val *
                (count_substr ((genes.getD d ⟨[], []⟩).regulatory_region)
                  ((srcList.getD t ⟨[], []⟩).product succ) : Int)⟩⟩ := by
  intro srcList
  induction srcList with
  | nil =>
    intro s0 e
    rw [expected_incoming]
    simp
  | cons g rest ih =>
    intro s0 e
    rw [expected_incoming, List.mem_append]
    constructor
    · rintro (hhead | htail)
      · by_cases hc : 0 < count_substr ((genes.getD d ⟨[], []⟩).regulatory_region)
            (g.product succ)
        · rw [if_pos hc] at hhead
          simp only [List.mem_singleton] at hhead
          exact ⟨0, by simp, by simpa using hc, by simpa [Nat.add_zero] using hhead⟩
        · rw [if_neg hc] at hhead
          simp at hhead
      · obtain ⟨t, ht, hc, he⟩ := (ih (s0 + 1) e).mp htail
        refine ⟨t + 1, by simpa using Nat.succ_lt_succ ht, by simpa using hc, ?_⟩
        rw [he]
        simp only [List.getD_cons_succ]
        congr 1
        omega
    · rintro ⟨t, ht, hc, he⟩
      cases t with
      | zero =>
        left
        simp only [List.getD_cons_zero] at hc he
        rw [if_pos hc]
        simp only [List.mem_singleton]
        simpa [Nat.add_zero] using he
      | succ t' =>
        right
        refine (ih (s0 + 1) e).mpr ⟨t', by simpa using Nat.lt_of_succ_lt_succ ht,
          by simpa using hc, ?_⟩
        simp only [List.getD_cons_succ] at he
        rw [he]
        congr 1
        omega

/-- C4 (amended): for every non-empty ordered gene list in which each gene's
coding region is non-empty (so each product is a usable non-empty pattern),
and every sign function, the constructed network has one node per gene and
contains, for each ordered pair (src, dst) of gene indices (including
src = dst), an edge src→dst if and only if product(src) occurs at least once
in regulatory_region(dst), and every such edge's weight equals
sign_of(product(src)) times the possibly-overlapping occurrence count; when
the count is zero no edge is materialized. -/
theorem claim_C4_amended [DecidableEq α] (succ : α → α)
    (reg : List α → ProteinRegulator) (genes : List (Gene α))
    (hne : genes ≠ []) (hcoding : ∀ g ∈ genes, g.gene ≠ []) :
    ∃ net, build_network succ reg genes = .ok (some net) ∧
      net.nodes.length = genes.length ∧
      ∀ src dst, src < genes.length → dst < genes.length →
        ((∃ w, (⟨src, w⟩ : Edge) ∈ (net.nodes.getD dst ⟨[]⟩).incoming_edges) ↔
          0 < count_substr ((genes.getD dst ⟨[], []⟩).regulatory_region)
                ((genes.getD src ⟨[], []⟩).product succ)) ∧
        (∀ w, (⟨src, w⟩ : Edge) ∈ (net.nodes.getD dst ⟨[]⟩).incoming_edges →
          w = ⟨(reg ((genes.getD src ⟨[], []⟩).product succ)).val *
            (count_substr ((genes.getD dst ⟨[], []⟩).regulatory_region)
              ((genes.getD src ⟨[], []⟩).product succ) : Int)⟩) := by
  have hprods : ∀ g ∈ genes, (g.product succ).length ≠ 0 := by
    intro g hg h
    exact hcoding g hg (List.eq_nil_of_length_eq_zero (by
      rwa [Gene.product, List.length_map] at h))
  have hlen0 : genes.length ≠ 0 := fun h => hne (List.eq_nil_of_length_eq_zero h)
  obtain ⟨net, heq, hlen, hinc⟩ := add_all_gene_edges_ok succ reg genes genes 0
    (GeneNetwork.new genes.length) hprods (new_network_length _)
  refine ⟨net, ?_, hlen, fun src dst hsrc hdst => ?_⟩
  · rw [build_network, if_neg hlen0, heq]
    rfl
  · have hmem : ∀ e : Edge, e ∈ (net.nodes.getD dst ⟨[]⟩).incoming_edges ↔
        ∃ t, t < genes.length ∧
          0 < count_substr ((genes.getD dst ⟨[], []⟩).regulatory_region)
                ((genes.getD t ⟨[], []⟩).product succ) ∧
          e = ⟨t, ⟨(reg ((genes.getD t ⟨[], []⟩).product succ)).val *
                (count_substr ((genes.getD dst ⟨[], []⟩).regulatory_region)
                  ((genes.getD t ⟨[], []⟩).product succ) : Int)⟩⟩ := by
      intro e
      rw [hinc dst hdst, new_network_incoming, List.nil_append,
        mem_expected_incoming]
      constructor
      · rintro ⟨t, ht, hc, he⟩
        exact ⟨t, ht, hc, by simpa using he⟩
      · rintro ⟨t, ht, hc, he⟩
        exact ⟨t, ht, hc, by simpa using he⟩
    constructor
    · constructor
      · rintro ⟨w, hw⟩
        obtain ⟨t, ht, hc, he⟩ := (hmem ⟨src, w⟩).mp hw
        have : src = t := by
          have := congrArg Edge.src he
          simpa using this
        rwa [this]
      · intro hc
        exact ⟨⟨(reg ((genes.getD src ⟨[], []⟩).product succ)).val *
          (count_substr ((genes.getD dst ⟨[], []⟩).regulatory_region)
            ((genes.getD src ⟨[], []⟩).product succ) : Int)⟩,
          (hmem _).mpr ⟨src, hsrc, hc, rfl⟩⟩
    · intro w hw
      obtain ⟨t, ht, hc, he⟩ := (hmem ⟨src, w⟩).mp hw
      have hst : src = t := by
        have := congrArg Edge.src he
        simpa using this
      subst hst
      have := congrArg Edge.weight he
      simpa using this

/-- Counterexample to C4 as stated: the non-empty gene list consisting of the
single gene with empty regulatory and coding regions makes network
construction panic (the count assertion rejects the empty product pattern),
so no network is constructed at all. -/
theorem claim_C4_counterexample :
    ([(⟨[], []⟩ : Gene Base4)] ≠ []) ∧
    build_network base4_succ (fun _ => ProteinRegulator.enhance)
      [(⟨[], []⟩ : Gene Base4)] = .error substrAssertMsg := by
  exact ⟨by decide, rfl⟩

/-- Witness for C4 at a concrete two-gene list: gene 0 = (reg `23`, coding
`0`), gene 1 = (reg `1`, coding `1`); products are `1` and `2`, giving
exactly the two cross edges 0→1 and 1→0. -/
theorem claim_C4_witness :
    ∃ net, build_network base4_succ (fun _ => ProteinRegulator.enhance)
        [(⟨[b2, b3], [b0]⟩ : Gene Base4), ⟨[b1], [b1]⟩] = .ok (some net) ∧
      net.nodes.length = 2 ∧
      ∀ src dst, src < 2 → dst < 2 →
        ((∃ w, (⟨src, w⟩ : Edge) ∈ (net.nodes.getD dst ⟨[]⟩).incoming_edges) ↔
          0 < count_substr
                (([(⟨[b2, b3], [b0]⟩ : Gene Base4), ⟨[b1], [b1]⟩].getD dst
                  ⟨[], []⟩).regulatory_region)
                (([(⟨[b2, b3], [b0]⟩ : Gene Base4), ⟨[b1], [b1]⟩].getD src
                  ⟨[], []⟩).product base4_succ)) ∧
        (∀ w, (⟨src, w⟩ : Edge) ∈ (net.nodes.getD dst ⟨[]⟩).incoming_edges →
          w = ⟨1 * (count_substr
                (([(⟨[b2, b3], [b0]⟩ : Gene Base4), ⟨[b1], [b1]⟩].getD dst
                  ⟨[], []⟩).regulatory_region)
                (([(⟨[b2, b3], [b0]⟩ : Gene Base4), ⟨[b1], [b1]⟩].getD src
                  ⟨[], []⟩).product base4_succ) : Int)⟩) :=
  claim_C4_amended base4_succ (fun _ => ProteinRegulator.enhance)
    [⟨[b2, b3], [b0]⟩, ⟨[b1], [b1]⟩] (by decide) (by decide)

theorem sum_edges_eq (node : Node) (st : GeneNetworkState) :
    node.sum_edges st =
      ((node.incoming_edges.filter (fun e => st.contains e.src)).map
        (fun e => e.weight.val)).sum := by
  rw [Node.sum_edges]
  have key : ∀ (l : List Edge) (a : Int),
      l.foldl (fun sum edge =>
        sum + (if st.contains edge.src then 1 else 0) * edge.weight.val) a =
        a + ((l.filter (fun e => st.contains e.src)).map (fun e => e.weight.val)).sum := by
    intro l
    induction l with
    | nil => intro a; simp
    | cons e rest ih =>
      intro a
      rw [List.foldl_cons, ih]
      by_cases h : st.contains e.src
      · simp [List.filter_cons, h, add_assoc]
      · simp [List.filter_cons, h]
  rw [key]
  simp

theorem insert_contains (s : GeneNetworkState) (i j : Nat) :
    (s.insert i).contains j =
      if j = i ∧ i < s.state.length then true else s.contains j := by
  simp only [GeneNetworkState.insert, GeneNetworkState.contains]
  rw [List.getD_eq_getElem?_getD, List.getElem?_set]
  by_cases hij : i = j
  · subst hij
    by_cases h : i < s.state.length
    · rw [if_pos rfl, if_pos h, if_pos ⟨rfl, h⟩]
      rfl
    · rw [if_pos rfl, if_neg h, if_neg (fun hh => h hh.2), List.getD_eq_getElem?_getD,
        List.getElem?_eq_none (by omega)]
  · rw [if_neg hij, if_neg (fun hh => hij hh.1.symm), List.getD_eq_getElem?_getD]

theorem insert_state_length (s : GeneNetworkState) (i : Nat) :
    (s.insert i).state.length = s.state.length := by
  simp [GeneNetworkState.insert]

theorem new_state_length (net : GeneNetwork) :
    net.new_state.state.length = net.nodes.length := by
  simp [GeneNetwork.new_state]

theorem new_state_contains (net : GeneNetwork) (j : Nat) :
    net.new_state.contains j = false := by
  simp only [GeneNetwork.new_state, GeneNetworkState.contains,
    List.getD_eq_getElem?_getD, List.getElem?_replicate]
  by_cases h : j < net.nodes.length
  · rw [if_pos h]; rfl
  · rw [if_neg h]; rfl

theorem set_active_nodes_length (st : GeneNetworkState) :
    ∀ (l : List Node) (k : Nat) (acc : GeneNetworkState),
      (set_active_nodes st l k acc).state.length = acc.state.length := by
  intro l
  induction l with
  | nil => intro k acc; rfl
  | cons node rest ih =>
    intro k acc
    simp only [set_active_nodes]
    rw [ih]
    by_cases h : 0 < node.sum_edges st
    · rw [if_pos h, insert_state_length]
    · rw [if_neg h]

theorem set_active_nodes_contains (st : GeneNetworkState) :
    ∀ (l : List Node) (k : Nat) (acc : GeneNetworkState) (j : Nat),
      j < acc.state.length →
      (set_active_nodes st l k acc).contains j =
        if k ≤ j ∧ j < k + l.length ∧ 0 < (l.getD (j - k) ⟨[]⟩).sum_edges st then true
        else acc.contains j := by
  intro l
  induction l with
  | nil =>
    intro k acc j hj
    simp only [set_active_nodes]
    rw [if_neg (by rintro ⟨h1, h2, -⟩; simp at h2; omega)]
  | cons node rest ih =>
    intro k acc j hj
    simp only [set_active_nodes]
    have hlen1 : (if 0 < node.sum_edges st then acc.insert k else acc).state.length =
        acc.state.length := by
      by_cases h : 0 < node.sum_edges st
      · rw [if_pos h, insert_state_length]
      · rw [if_neg h]
    rw [ih (k + 1) _ j (by rw [hlen1]; exact hj)]
    have hacc1 : (if 0 < node.sum_edges st then acc.insert k else acc).contains j =
        if j = k ∧ 0 < node.sum_edges st then true else acc.contains j := by
      by_cases h : 0 < node.sum_edges st
      · rw [if_pos h, insert_contains]
        by_cases hjk : j = k
        · subst hjk
          rw [if_pos ⟨rfl, hj⟩, if_pos ⟨rfl, h⟩]
        · rw [if_neg (fun hh => hjk hh.1), if_neg (fun hh => hjk hh.1)]
      · rw [if_neg h, if_neg (fun hh => h hh.2)]
    rw [hacc1]
    by_cases hjk : j = k
    · subst hjk
      have hr : ¬ (j + 1 ≤ j ∧ j < j + 1 + rest.length ∧
          0 < (rest.getD (j - (j + 1)) ⟨[]⟩).sum_edges st) :=
        fun hh => absurd hh.1 (by omega)
      rw [if_neg hr, Nat.sub_self, List.getD_cons_zero]
      by_cases h0 : 0 < node.sum_edges st
      · rw [if_pos ⟨rfl, h0⟩,
          if_pos ⟨Nat.le_refl j, by simp only [List.length_cons]; omega, h0⟩]
      · rw [if_neg (fun hh => h0 hh.2), if_neg (fun hh => h0 hh.2.2)]
    · have hfirst : ¬ (j = k ∧ 0 < node.sum_edges st) := fun hh => hjk hh.1
      rw [if_neg hfirst]
      by_cases hle : k + 1 ≤ j
      · have hsub : j - k = (j - (k + 1)) + 1 := by omega
        rw [hsub, List.getD_cons_succ]
        refine if_congr ⟨fun h => ⟨by omega, by simp only [List.length_cons]; omega, h.2.2⟩,
          fun h => ⟨by omega, by simp only [List.length_cons] at h; omega, h.2.2⟩⟩ rfl rfl
      · have hr1 : ¬ (k + 1 ≤ j ∧ j < k + 1 + rest.length ∧
            0 < (rest.getD (j - (k + 1)) ⟨[]⟩).sum_edges st) := fun hh => hle hh.1
        have hr2 : ¬ (k ≤ j ∧ j < k + (node :: rest).length ∧
            0 < ((node :: rest).getD (j - k) ⟨[]⟩).sum_edges st) :=
          fun hh => hle (by omega)
        rw [if_neg hr1, if_neg hr2]

/-- C5: the new bit of each node `i` after a state transition is set if and
only if the sum of the weights of `i`'s incoming edges whose source bit is
set in the old state is strictly greater than zero (ties at zero and
negative sums both yield inactive), and the new state has exactly one bit
per network node.  The transition reads only the old state and the network,
and — being a plain function of `(network, state)` in this embedding — is
pure and deterministic. -/
theorem claim_C5 (network : GeneNetwork) (st : GeneNetworkState) (i : Nat)
    (hi : i < network.nodes.length) :
    ((transition_state network st).contains i = true ↔
      0 < (((network.nodes.getD i ⟨[]⟩).incoming_edges.filter
            (fun e => st.contains e.src)).map (fun e => e.weight.val)).sum) ∧
    (transition_state network st).state.length = network.nodes.length := by
  constructor
  · rw [transition_state, set_active_nodes_contains st network.nodes 0 _ i
      (by rw [new_state_length]; exact hi), Nat.sub_zero]
    by_cases hsum : 0 < (network.nodes.getD i ⟨[]⟩).sum_edges st
    · rw [if_pos ⟨Nat.zero_le i, by omega, hsum⟩]
      rw [sum_edges_eq] at hsum
      exact iff_of_true rfl hsum
    · rw [if_neg (fun hh => hsum hh.2.2), new_state_contains]
      rw [sum_edges_eq] at hsum
      exact iff_of_false (by simp) hsum
  · rw [transition_state, set_active_nodes_length, new_state_length]

/-- Witness for C5 at a concrete two-node network (weight 2 edge 1→0 and
weight −1 edge 0→1) and the state with only bit 1 active. -/
theorem claim_C5_witness :
    ((transition_state ⟨[⟨[⟨1, ⟨2⟩⟩]⟩, ⟨[⟨0, ⟨-1⟩⟩]⟩]⟩ ⟨[false, true]⟩).contains 0 = true ↔
      0 < ((((⟨[⟨[⟨1, ⟨2⟩⟩]⟩, ⟨[⟨0, ⟨-1⟩⟩]⟩]⟩ : GeneNetwork).nodes.getD 0 ⟨[]⟩).incoming_edges.filter
            (fun e => (⟨[false, true]⟩ : GeneNetworkState).contains e.src)).map
          (fun e => e.weight.val)).sum) ∧
    (transition_state ⟨[⟨[⟨1, ⟨2⟩⟩]⟩, ⟨[⟨0, ⟨-1⟩⟩]⟩]⟩ ⟨[false, true]⟩).state.length =
      (⟨[⟨[⟨1, ⟨2⟩⟩]⟩, ⟨[⟨0, ⟨-1⟩⟩]⟩]⟩ : GeneNetwork).nodes.length :=
  claim_C5 ⟨[⟨[⟨1, ⟨2⟩⟩]⟩, ⟨[⟨0, ⟨-1⟩⟩]⟩]⟩ ⟨[false, true]⟩ 0 (by decide)

/-- C10: when both the split bit and the duplicate bit are active in an
edge's transitioned state in the same development step, the duplicate child
is created from the parent's `dst_node` as already retargeted by the split
rule: the new edges of the step are the split child followed by the
duplicate child, and the duplicate child runs from the freshly allocated
split node id to the parent's `src_node` (carrying the already halved
length), not from the parent's pre-split `dst_node`. -/
theorem claim_C10 (network : GeneNetwork) (e : GEdge) (nid : Nat)
    (hsplit : (transition_state network e.network_state).contains EDGE_SPLIT = true)
    (hdup : (transition_state network e.network_state).contains EDGE_DUPLICATE = true) :
    ((develop network e nid).2.2).map (fun c => (c.src_node, c.dst_node, c.length)) =
      [(nid, e.dst_node, (1/2 : ℚ) * e.length), (nid, e.src_node, e.length / 2)] := by
  simp only [develop, hsplit, hdup, if_true]
  simp

/-- Witness for C10 at a concrete three-node network whose transition
activates exactly the split and duplicate bits from the zygote state. -/
theorem claim_C10_witness :
    ((develop ⟨[⟨[]⟩, ⟨[⟨1, ⟨1⟩⟩]⟩, ⟨[⟨1, ⟨1⟩⟩]⟩]⟩
        ⟨5, 9, 4, 3, ⟨[false, true, false]⟩⟩ 42).2.2).map
      (fun c => (c.src_node, c.dst_node, c.length)) =
      [(42, 9, (1/2 : ℚ) * 4), (42, 5, (4 : ℚ) / 2)] :=
  claim_C10 ⟨[⟨[]⟩, ⟨[⟨1, ⟨1⟩⟩]⟩, ⟨[⟨1, ⟨1⟩⟩]⟩]⟩ ⟨5, 9, 4, 3, ⟨[false, true, false]⟩⟩ 42
    (by decide) (by decide)

/-- C6 (corrected): the development rules read the edge's *transitioned*
state, not the zygote itself.  Whenever the transition of the zygote state
activates the split bit and none of the other rule bits — as it does for a
network with a single positive self-loop on node 1 — one generation from the
zygote-seeded builder yields exactly 2 edges: the original edge with its
`dst_node` updated to the newly allocated node id 2 and half its original
length, and the split child from node 2 to the original destination 1, also
with half the original length; the id counter advances to 3. -/
theorem claim_C6_amended (network : GeneNetwork) (z : GeneNetworkState)
    (hsplit : (transition_state network z).contains EDGE_SPLIT = true)
    (hdup : (transition_state network z).contains EDGE_DUPLICATE = false)
    (hswap : (transition_state network z).contains EDGE_SWAP = false)
    (hgrow : (transition_state network z).contains EDGE_GROW = false)
    (hshrink : (transition_state network z).contains EDGE_SHRINK = false)
    (htype : (transition_state network z).contains EDGE_TYPE = false) :
    (GraphBuilder.new network z).next.edges.length = 2 ∧
    (GraphBuilder.new network z).next.edges.map
        (fun e => (e.src_node, e.dst_node, e.length, e.type_count)) =
      [(0, 2, 1/2, 0), (2, 1, 1/2, 0)] ∧
    (GraphBuilder.new network z).next.next_node_id = 3 := by
  have h : (GraphBuilder.new network z).next.edges =
      [⟨0, 2, (1 : ℚ) / 2, 0, transition_state network z⟩,
       ⟨2, 1, (1/2 : ℚ) * 1, 0,
        (transition_state network z).setBit EDGE_DIFFERENTIATION
          (! (transition_state network z).contains EDGE_DIFFERENTIATION)⟩] ∧
      (GraphBuilder.new network z).next.next_node_id = 3 := by
    simp [GraphBuilder.new, GraphBuilder.next, develop_edges, develop,
      hsplit, hdup, hswap, hgrow, hshrink, htype]
  refine ⟨?_, ?_, h.2⟩
  · rw [h.1]
    rfl
  · rw [h.1]
    norm_num

/-- Counterexample to C6 as stated: for the concrete 7-node network with no
regulatory edges, the transition zeroes the state, so the split rule does
not fire even though only the split bit is active in the zygote, and after
one generation the builder still holds exactly 1 edge, not 2. -/
theorem claim_C6_counterexample :
    (GraphBuilder.new ⟨List.replicate 7 ⟨[]⟩⟩
        ⟨[false, true, false, false, false, false, false]⟩).next.edges.length = 1 ∧
    ¬ ((GraphBuilder.new ⟨List.replicate 7 ⟨[]⟩⟩
        ⟨[false, true, false, false, false, false, false]⟩).next.edges.length = 2) := by
  constructor
  · rfl
  · decide

/-- Witness for C6 (amended) at the network with a single weight-1 self-loop
on node 1, whose transition maps the only-split-bit zygote to itself. -/
theorem claim_C6_witness :
    (GraphBuilder.new ⟨[⟨[]⟩, ⟨[⟨1, ⟨1⟩⟩]⟩]⟩ ⟨[false, true]⟩).next.edges.length = 2 ∧
    (GraphBuilder.new ⟨[⟨[]⟩, ⟨[⟨1, ⟨1⟩⟩]⟩]⟩ ⟨[false, true]⟩).next.edges.map
        (fun e => (e.src_node, e.dst_node, e.length, e.type_count)) =
      [(0, 2, 1/2, 0), (2, 1, 1/2, 0)] ∧
    (GraphBuilder.new ⟨[⟨[]⟩, ⟨[⟨1, ⟨1⟩⟩]⟩]⟩ ⟨[false, true]⟩).next.next_node_id = 3 :=
  claim_C6_amended ⟨[⟨[]⟩, ⟨[⟨1, ⟨1⟩⟩]⟩]⟩ ⟨[false, true]⟩
    (by decide) (by decide) (by decide) (by decide) (by decide) (by decide)

theorem develop_edges_decompose (network : GeneNetwork) :
    ∀ (es : List GEdge) (nid : Nat),
      ∃ nids : List Nat, nids.length = es.length ∧
        (develop_edges network es nid).1 =
          List.zipWith (fun e n => (develop network e n).1) es nids ∧
        (develop_edges network es nid).2.2 =
          (List.zipWith (fun e n => (develop network e n).2.2) es nids).flatten := by
  intro es
  induction es with
  | nil => intro nid; exact ⟨[], rfl, rfl, rfl⟩
  | cons e rest ih =>
    intro nid
    obtain ⟨nids, hlen, h1, h2⟩ := ih ((develop network e nid).2.1)
    refine ⟨nid :: nids, by simp [hlen], ?_, ?_⟩
    · simp only [develop_edges, List.zipWith_cons_cons]
      rw [h1]
    · simp only [develop_edges, List.zipWith_cons_cons, List.flatten_cons]
      rw [h2]

/-- C7: one generation of the builder first rewrites every edge that existed
at the start of the generation — the `i`-th rewritten edge is `develop`
applied to the `i`-th old edge alone (plus the threaded node-id counter), so
it reads only that edge's previous-generation state — and only then appends
all newly created edges, which therefore never undergo a state transition or
rewrite in the generation that created them. -/
theorem claim_C7 (gb : GraphBuilder) :
    ∃ nids : List Nat,
      nids.length = gb.edges.length ∧
      (List.zipWith (fun e n => (develop gb.network e n).1) gb.edges nids).length =
        gb.edges.length ∧
      gb.next.edges =
        List.zipWith (fun e n => (develop gb.network e n).1) gb.edges nids ++
        (List.zipWith (fun e n => (develop gb.network e n).2.2) gb.edges nids).flatten := by
  obtain ⟨nids, hlen, h1, h2⟩ := develop_edges_decompose gb.network gb.edges gb.next_node_id
  refine ⟨nids, hlen, ?_, ?_⟩
  · rw [List.length_zipWith, hlen, Nat.min_self]
  · simp only [GraphBuilder.next]
    rw [h1, h2]

theorem pairLt_irrefl (a : Nat × Nat) : ¬ pairLt a a := by
  rintro (h | ⟨h1, h2⟩) <;> omega

theorem pairLt_trans {a b c : Nat × Nat} (h1 : pairLt a b) (h2 : pairLt b c) :
    pairLt a c := by
  rcases h1 with h1 | ⟨h1, h1'⟩ <;> rcases h2 with h2 | ⟨h2, h2'⟩ <;>
    unfold pairLt <;> omega

theorem pairLt_trichotomy (a b : Nat × Nat) : pairLt a b ∨ a = b ∨ pairLt b a := by
  rcases Nat.lt_trichotomy a.1 b.1 with h | h | h
  · exact Or.inl (Or.inl h)
  · rcases Nat.lt_trichotomy a.2 b.2 with h2 | h2 | h2
    · exact Or.inl (Or.inr ⟨h, h2⟩)
    · exact Or.inr (Or.inl (Prod.ext h h2))
    · exact Or.inr (Or.inr (Or.inr ⟨h.symm, h2⟩))
  · exact Or.inr (Or.inr (Or.inl h))

theorem pairLt_ne {a b : Nat × Nat} (h : pairLt a b) : a ≠ b := by
  rintro rfl
  exact pairLt_irrefl a h

theorem lookup_cons_eval (k k' : Nat × Nat) (v : Nat) (m : List ((Nat × Nat) × Nat)) :
    List.lookup k' ((k, v) :: m) = if k' = k then some v else List.lookup k' m := by
  rw [List.lookup_cons]
  by_cases h : k' = k
  · rw [if_pos h]
    have hb : (k' == k) = true := beq_iff_eq.mpr h
    rw [hb]
  · rw [if_neg h]
    have hb : (k' == k) = false := beq_eq_false_iff_ne.mpr h
    rw [hb]

theorem lookup_eq_none_of (k : Nat × Nat) :
    ∀ (m : List ((Nat × Nat) × Nat)), (∀ e ∈ m, e.1 ≠ k) → List.lookup k m = none := by
  intro m
  induction m with
  | nil => intro _; rfl
  | cons e rest ih =>
    intro h
    obtain ⟨k0, v0⟩ := e
    rw [lookup_cons_eval,
      if_neg (fun hk => h (k0, v0) (List.mem_cons_self _ _) (by simpa using hk.symm))]
    exact ih (fun e' he' => h e' (List.mem_cons_of_mem _ he'))

theorem mem_iff_lookup (k : Nat × Nat) (v : Nat) :
    ∀ (m : List ((Nat × Nat) × Nat)),
      List.Pairwise (fun a b => pairLt a.1 b.1) m →
      ((k, v) ∈ m ↔ List.lookup k m = some v) := by
  intro m
  induction m with
  | nil => intro _; simp
  | cons e rest ih =>
    intro hsort
    obtain ⟨k0, v0⟩ := e
    obtain ⟨hhd, htl⟩ := List.pairwise_cons.mp hsort
    rw [lookup_cons_eval, List.mem_cons]
    have hrest := ih htl
    by_cases hk : k = k0
    · subst hk
      rw [if_pos rfl]
      constructor
      · rintro (he | hmem)
        · injection he with h1 h2
          rw [h2]
        · exact absurd (hhd _ hmem) (pairLt_irrefl _)
      · intro hv
        left
        rw [show v0 = v from Option.some.inj hv]
    · rw [if_neg hk]
      constructor
      · rintro (he | hmem)
        · exact absurd (congrArg Prod.fst he) hk
        · exact hrest.mp hmem
      · intro hv
        exact Or.inr (hrest.mpr hv)

theorem updateSelected_keys (edges : List GEdge) (key : Nat × Nat) (i : Nat) :
    ∀ (m : List ((Nat × Nat) × Nat)) (e : (Nat × Nat) × Nat),
      e ∈ updateSelected edges key i m → e.1 = key ∨ ∃ e' ∈ m, e.1 = e'.1 := by
  intro m
  induction m with
  | nil =>
    intro e he
    simp only [updateSelected, List.mem_singleton] at he
    subst he
    exact Or.inl rfl
  | cons hd rest ih =>
    intro e he
    obtain ⟨k0, j0⟩ := hd
    simp only [updateSelected] at he
    by_cases h1 : pairLt key k0
    · rw [if_pos h1] at he
      simp only [List.mem_cons] at he
      rcases he with he | he | he
      · exact Or.inl (by rw [he])
      · exact Or.inr ⟨(k0, j0), List.mem_cons_self _ _, by rw [he]⟩
      · exact Or.inr ⟨e, List.mem_cons_of_mem _ he, rfl⟩
    · rw [if_neg h1] at he
      by_cases h2 : key = k0
      · rw [if_pos h2] at he
        by_cases h3 : (edges.getD j0 dGEdge).type_count <
            (edges.getD i dGEdge).type_count
        · rw [if_pos h3] at he
          simp only [List.mem_cons] at he
          rcases he with he | he
          · exact Or.inr ⟨(k0, j0), List.mem_cons_self _ _, by rw [he]⟩
          · exact Or.inr ⟨e, List.mem_cons_of_mem _ he, rfl⟩
        · rw [if_neg h3] at he
          simp only [List.mem_cons] at he
          rcases he with he | he
          · exact Or.inr ⟨(k0, j0), List.mem_cons_self _ _, by rw [he]⟩
          · exact Or.inr ⟨e, List.mem_cons_of_mem _ he, rfl⟩
      · rw [if_neg h2] at he
        simp only [List.mem_cons] at he
        rcases he with he | he
        · exact Or.inr ⟨(k0, j0), List.mem_cons_self _ _, by rw [he]⟩
        · rcases ih e he with h | ⟨e', he', hee⟩
          · exact Or.inl h
          · exact Or.inr ⟨e', List.mem_cons_of_mem _ he', hee⟩

theorem updateSelected_sorted (edges : List GEdge) (key : Nat × Nat) (i : Nat) :
    ∀ (m : List ((Nat × Nat) × Nat)),
      List.Pairwise (fun a b => pairLt a.1 b.1) m →
      List.Pairwise (fun a b => pairLt a.1 b.1) (updateSelected edges key i m) := by
  intro m
  induction m with
  | nil =>
    intro _
    exact List.pairwise_singleton _ _
  | cons hd rest ih =>
    intro hsort
    obtain ⟨k0, j0⟩ := hd
    obtain ⟨hhd, htl⟩ := List.pairwise_cons.mp hsort
    simp only [updateSelected]
    by_cases h1 : pairLt key k0
    · rw [if_pos h1]
      refine List.pairwise_cons.mpr ⟨?_, hsort⟩
      intro b hb
      simp only [List.mem_cons] at hb
      rcases hb with hb | hb
      · rw [hb]; exact h1
      · exact pairLt_trans h1 (hhd b hb)
    · rw [if_neg h1]
      by_cases h2 : key = k0
      · rw [if_pos h2]
        by_cases h3 : (edges.getD j0 dGEdge).type_count <
            (edges.getD i dGEdge).type_count
        · rw [if_pos h3]
          exact List.pairwise_cons.mpr ⟨hhd, htl⟩
        · rw [if_neg h3]
          exact hsort
      · rw [if_neg h2]
        refine List.pairwise_cons.mpr ⟨?_, ih htl⟩
        intro b hb
        rcases updateSelected_keys edges key i rest b hb with hbk | ⟨e', he', hee⟩
        · rw [hbk]
          rcases pairLt_trichotomy key k0 with h | h | h
          · exact absurd h h1
          · exact absurd h h2
          · exact h
        · rw [hee]
          exact hhd e' he'

theorem lookup_updateSelected (edges : List GEdge) (key : Nat × Nat) (i : Nat) :
    ∀ (m : List ((Nat × Nat) × Nat)),
      List.Pairwise (fun a b => pairLt a.1 b.1) m →
      ∀ k', List.lookup k' (updateSelected edges key i m) =
        if k' = key then
          match List.lookup key m with
          | none => some i
          | some j => if (edges.getD j dGEdge).type_count <
              (edges.getD i dGEdge).type_count then some i else some j
        else List.lookup k' m := by
  intro m
  induction m with
  | nil =>
    intro _ k'
    simp only [updateSelected, List.lookup_nil]
    rw [lookup_cons_eval]
    rfl
  | cons hd rest ih =>
    intro hsort k'
    obtain ⟨k0, j0⟩ := hd
    obtain ⟨hhd, htl⟩ := List.pairwise_cons.mp hsort
    simp only [updateSelected]
    by_cases h1 : pairLt key k0
    · rw [if_pos h1]
      have hnone : List.lookup key ((k0, j0) :: rest) = none := by
        apply lookup_eq_none_of
        rintro e he
        simp only [List.mem_cons] at he
        rcases he with he | he
        · rw [he]
          exact fun h => pairLt_ne h1 h.symm
        · exact fun h => pairLt_ne (pairLt_trans h1 (hhd e he)) h.symm
      simp only [hnone]
      rw [lookup_cons_eval]
    · rw [if_neg h1]
      by_cases h2 : key = k0
      · subst h2
        rw [if_pos rfl]
        have hself : List.lookup key ((key, j0) :: rest) = some j0 := by
          rw [lookup_cons_eval, if_pos rfl]
        simp only [hself]
        by_cases h3 : (edges.getD j0 dGEdge).type_count <
            (edges.getD i dGEdge).type_count
        · rw [if_pos h3, lookup_cons_eval, lookup_cons_eval]
          by_cases hk : k' = key
          · rw [if_pos hk, if_pos hk, if_pos h3]
          · rw [if_neg hk, if_neg hk, if_neg hk]
        · rw [if_neg h3, lookup_cons_eval]
          by_cases hk : k' = key
          · rw [if_pos hk, if_pos hk, if_neg h3]
          · rw [if_neg hk, if_neg hk]
      · rw [if_neg h2]
        have hkey : List.lookup key ((k0, j0) :: rest) = List.lookup key rest := by
          rw [lookup_cons_eval, if_neg h2]
        simp only [hkey]
        rw [lookup_cons_eval]
        by_cases hk : k' = k0
        · rw [if_pos hk, if_neg (fun h => h2 (h.symm.trans hk)), lookup_cons_eval,
            if_pos hk]
        · rw [if_neg hk, ih htl k']
          by_cases hk2 : k' = key
          · rw [if_pos hk2, if_pos hk2]
          · rw [if_neg hk2, if_neg hk2, lookup_cons_eval, if_neg hk]

theorem isBestUpTo_unique (edges : List GEdge) (t : Nat) (k : Nat × Nat) {a b : Nat}
    (ha : IsBestUpTo edges t k a) (hb : IsBestUpTo edges t k b) : a = b := by
  rcases Nat.lt_trichotomy a b with h | h | h
  · exact absurd (hb.2.2.2 a h ha.2.1) (Nat.not_lt.mpr (ha.2.2.1 b hb.1 hb.2.1))
  · exact h
  · exact absurd (ha.2.2.2 b h hb.2.1) (Nat.not_lt.mpr (hb.2.2.1 a ha.1 ha.2.1))

theorem isBestUpTo_succ_ne (edges : List GEdge) (t : Nat) (k : Nat × Nat) (idx : Nat)
    (hk : edgeKey edges t ≠ k) :
    IsBestUpTo edges (t + 1) k idx ↔ IsBestUpTo edges t k idx := by
  constructor
  · rintro ⟨h1, h2, h3, h4⟩
    have hidx : idx < t := by
      rcases Nat.lt_or_ge idx t with h | h
      · exact h
      · have heq : idx = t := by omega
        exact absurd (heq ▸ h2) hk
    exact ⟨hidx, h2, fun j hj hkj => h3 j (by omega) hkj, h4⟩
  · rintro ⟨h1, h2, h3, h4⟩
    refine ⟨by omega, h2, fun j hj hkj => ?_, h4⟩
    rcases Nat.lt_or_ge j t with h | h
    · exact h3 j h hkj
    · have heq : j = t := by omega
      exact absurd (heq ▸ hkj) hk

theorem isBestUpTo_succ_new (edges : List GEdge) (t : Nat) (k : Nat × Nat)
    (hk : edgeKey edges t = k) (hno : ∀ j, j < t → edgeKey edges j ≠ k) (idx : Nat) :
    IsBestUpTo edges (t + 1) k idx ↔ idx = t := by
  constructor
  · rintro ⟨h1, h2, h3, h4⟩
    rcases Nat.lt_or_ge idx t with h | h
    · exact absurd h2 (hno idx h)
    · omega
  · intro heq
    rw [heq]
    refine ⟨Nat.lt_succ_self t, hk, fun j hj hkj => ?_, fun j hj hkj => ?_⟩
    · rcases Nat.lt_or_ge j t with h | h
      · exact absurd hkj (hno j h)
      · have hjt : j = t := by omega
        rw [hjt]
    · exact absurd hkj (hno j hj)

theorem isBestUpTo_succ_update (edges : List GEdge) (t : Nat) (k : Nat × Nat)
    (j0 : Nat) (hk : edgeKey edges t = k) (hj0 : IsBestUpTo edges t k j0) (idx : Nat) :
    IsBestUpTo edges (t + 1) k idx ↔
      idx = (if (edges.getD j0 dGEdge).type_count < (edges.getD t dGEdge).type_count
             then t else j0) := by
  have hchosen : IsBestUpTo edges (t + 1) k
      (if (edges.getD j0 dGEdge).type_count < (edges.getD t dGEdge).type_count
       then t else j0) := by
    by_cases hcmp : (edges.getD j0 dGEdge).type_count < (edges.getD t dGEdge).type_count
    · rw [if_pos hcmp]
      refine ⟨Nat.lt_succ_self t, hk, fun j hj hkj => ?_, fun j hj hkj => ?_⟩
      · rcases Nat.lt_or_ge j t with h | h
        · exact Nat.le_of_lt (Nat.lt_of_le_of_lt (hj0.2.2.1 j h hkj) hcmp)
        · have hjt : j = t := by omega
          rw [hjt]
      · exact Nat.lt_of_le_of_lt (hj0.2.2.1 j hj hkj) hcmp
    · rw [if_neg hcmp]
      refine ⟨Nat.lt_succ_of_lt hj0.1, hj0.2.1, fun j hj hkj => ?_, hj0.2.2.2⟩
      rcases Nat.lt_or_ge j t with h | h
      · exact hj0.2.2.1 j h hkj
      · have hjt : j = t := by omega
        rw [hjt]
        omega
  constructor
  · intro h
    exact isBestUpTo_unique edges (t + 1) k h hchosen
  · rintro rfl
    exact hchosen

theorem drop_cons_facts (edges : List GEdge) (t : Nat) (e : GEdge)
    (rest' : List GEdge) (h : edges.drop t = e :: rest') :
    t < edges.length ∧ edges.getD t dGEdge = e ∧ edges.drop (t + 1) = rest' := by
  have hlt : t < edges.length := by
    by_contra hge
    rw [List.drop_eq_nil_of_le (Nat.le_of_not_lt hge)] at h
    cases h
  refine ⟨hlt, ?_, ?_⟩
  · have h0 : (edges.drop t)[0]? = edges[t]? := by
      rw [List.getElem?_drop, Nat.add_zero]
    rw [List.getD_eq_getElem?_getD, ← h0, h]
    simp
  · have h1 : edges.drop (t + 1) = List.drop 1 (edges.drop t) := by
      rw [List.drop_drop, Nat.add_comm]
    rw [h1, h, List.drop_one]
    rfl

theorem collect_selected_spec (edges : List GEdge) :
    ∀ (rest : List GEdge) (t : Nat) (m : List ((Nat × Nat) × Nat)),
      rest = edges.drop t → t ≤ edges.length →
      List.Pairwise (fun a b => pairLt a.1 b.1) m →
      (∀ k idx, List.lookup k m = some idx ↔ IsBestUpTo edges t k idx) →
      (∀ k, List.lookup k m = none ↔ ∀ j, j < t → edgeKey edges j ≠ k) →
      List.Pairwise (fun a b => pairLt a.1 b.1) (collect_selected edges rest t m) ∧
      (∀ k idx, List.lookup k (collect_selected edges rest t m) = some idx ↔
        IsBestUpTo edges edges.length k idx) ∧
      (∀ k, List.lookup k (collect_selected edges rest t m) = none ↔
        ∀ j, j < edges.length → edgeKey edges j ≠ k) := by
  intro rest
  induction rest with
  | nil =>
    intro t m hdrop ht hsort hsome hnone
    have htlen : t = edges.length := by
      have := List.drop_eq_nil_iff.mp hdrop.symm
      omega
    subst htlen
    exact ⟨hsort, hsome, hnone⟩
  | cons e rest' ih =>
    intro t m hdrop ht hsort hsome hnone
    obtain ⟨hlt, hget, hdrop'⟩ := drop_cons_facts edges t e rest' hdrop.symm
    simp only [collect_selected]
    have hkey : edgeKey edges t = (e.src_node, e.dst_node) := by
      rw [edgeKey, hget]
    have m'sort := updateSelected_sorted edges (e.src_node, e.dst_node) t m hsort
    have m'lookup := lookup_updateSelected edges (e.src_node, e.dst_node) t m hsort
    have hsome' : ∀ k idx,
        List.lookup k (updateSelected edges (e.src_node, e.dst_node) t m) = some idx ↔
        IsBestUpTo edges (t + 1) k idx := by
      intro k idx
      rw [m'lookup k]
      by_cases hk : k = (e.src_node, e.dst_node)
      · subst hk
        rw [if_pos rfl]
        cases hcase : List.lookup (e.src_node, e.dst_node) m with
        | none =>
          have hno := (hnone _).mp hcase
          rw [isBestUpTo_succ_new edges t _ hkey hno idx]
          simp only [hcase]
          exact ⟨fun h => (Option.some.inj h).symm, by rintro rfl; rfl⟩
        | some j0 =>
          have hj0 := (hsome _ j0).mp hcase
          rw [isBestUpTo_succ_update edges t _ j0 hkey hj0 idx]
          simp only [hcase]
          by_cases hcmp : (edges.getD j0 dGEdge).type_count <
              (edges.getD t dGEdge).type_count
          · rw [if_pos hcmp, if_pos hcmp]
            exact ⟨fun h => (Option.some.inj h).symm, by rintro rfl; rfl⟩
          · rw [if_neg hcmp, if_neg hcmp]
            exact ⟨fun h => (Option.some.inj h).symm, by rintro rfl; rfl⟩
      · rw [if_neg hk, hsome k idx]
        exact (isBestUpTo_succ_ne edges t k idx
          (fun hh => hk (hh.symm.trans hkey))).symm
    have hnone' : ∀ k,
        List.lookup k (updateSelected edges (e.src_node, e.dst_node) t m) = none ↔
        ∀ j, j < t + 1 → edgeKey edges j ≠ k := by
      intro k
      rw [m'lookup k]
      by_cases hk : k = (e.src_node, e.dst_node)
      · subst hk
        rw [if_pos rfl]
        constructor
        · intro h
          cases hcase : List.lookup (e.src_node, e.dst_node) m with
          | none =>
            simp only [hcase] at h
            cases h
          | some j0 =>
            simp only [hcase] at h
            by_cases hcmp : (edges.getD j0 dGEdge).type_count <
                (edges.getD t dGEdge).type_count
            · rw [if_pos hcmp] at h; cases h
            · rw [if_neg hcmp] at h; cases h
        · intro h
          exact absurd hkey (h t (Nat.lt_succ_self t))
      · rw [if_neg hk, hnone k]
        constructor
        · intro h j hj hkj
          rcases Nat.lt_or_ge j t with hlt' | hge
          · exact h j hlt' hkj
          · have hjt : j = t := by omega
            subst hjt
            exact hk (hkj.symm.trans hkey)
        · intro h j hj hkj
          exact h j (by omega) hkj
    exact ih (t + 1) _ hdrop'.symm (by omega) m'sort hsome' hnone'

theorem collect_final_spec (edges : List GEdge) :
    List.Pairwise (fun a b => pairLt a.1 b.1) (collect_selected edges edges 0 []) ∧
    (∀ k idx, List.lookup k (collect_selected edges edges 0 []) = some idx ↔
      IsBest edges k idx) ∧
    (∀ k, List.lookup k (collect_selected edges edges 0 []) = none ↔
      ∀ j, j < edges.length → edgeKey edges j ≠ k) := by
  have h := collect_selected_spec edges edges 0 [] rfl (Nat.zero_le _) List.Pairwise.nil
    (by
      intro k idx
      simp only [List.lookup_nil]
      constructor
      · intro h; cases h
      · rintro ⟨h1, -, -, -⟩
        exact absurd h1 (Nat.not_lt_zero idx))
    (by
      intro k
      simp only [List.lookup_nil]
      exact ⟨fun _ j hj => absurd hj (Nat.not_lt_zero j), fun _ => trivial⟩)
  exact h

theorem survivors_isBest (edges : List GEdge) :
    ∀ g ∈ selected_survivors edges, ∃ i, IsBest edges (g.src_node, g.dst_node) i ∧
      edges.getD i dGEdge = g := by
  intro g hg
  obtain ⟨hsort, hsome, -⟩ := collect_final_spec edges
  simp only [selected_survivors, List.mem_map] at hg
  obtain ⟨p, hp, hpg⟩ := hg
  obtain ⟨k, idx⟩ := p
  have hlook := (mem_iff_lookup k idx _ hsort).mp hp
  have hbest := (hsome k idx).mp hlook
  refine ⟨idx, ?_, hpg⟩
  have hkey : (g.src_node, g.dst_node) = k := by
    rw [← hpg]
    exact hbest.2.1
  rw [hkey]
  exact hbest

theorem survivors_cover (edges : List GEdge) :
    ∀ e0 ∈ edges, ∃ g ∈ selected_survivors edges,
      (g.src_node, g.dst_node) = (e0.src_node, e0.dst_node) := by
  intro e0 he0
  obtain ⟨hsort, hsome, hnone⟩ := collect_final_spec edges
  obtain ⟨j, hj, hje⟩ := List.mem_iff_getElem.mp he0
  have hgetD : edges.getD j dGEdge = e0 := by
    rw [List.getD_eq_getElem?_getD, List.getElem?_eq_getElem hj, hje]
    rfl
  have hkey : edgeKey edges j = (e0.src_node, e0.dst_node) := by
    rw [edgeKey, hgetD]
  cases hcase : List.lookup (e0.src_node, e0.dst_node) (collect_selected edges edges 0 []) with
  | none =>
    exact absurd hkey ((hnone _).mp hcase j hj)
  | some idx =>
    have hbest := (hsome _ idx).mp hcase
    refine ⟨edges.getD idx dGEdge, ?_, hbest.2.1⟩
    simp only [selected_survivors, List.mem_map]
    exact ⟨((e0.src_node, e0.dst_node), idx),
      (mem_iff_lookup _ idx _ hsort).mpr hcase, rfl⟩

theorem survivors_pairwise (edges : List GEdge) :
    (selected_survivors edges).Pairwise
      (fun a b => (a.src_node, a.dst_node) ≠ (b.src_node, b.dst_node)) := by
  obtain ⟨hsort, hsome, -⟩ := collect_final_spec edges
  rw [selected_survivors, List.pairwise_map]
  have hkeys : ∀ p ∈ collect_selected edges edges 0 [],
      ((edges.getD p.2 dGEdge).src_node, (edges.getD p.2 dGEdge).dst_node) = p.1 := by
    intro p hp
    obtain ⟨k, idx⟩ := p
    have hlook := (mem_iff_lookup k idx _ hsort).mp hp
    exact ((hsome k idx).mp hlook).2.1
  refine hsort.imp_of_mem ?_
  intro a b ha hb hab
  rw [hkeys a ha, hkeys b hb]
  exact pairLt_ne hab

theorem mem_build_out_map :
    ∀ (l : List GEdge) (k : Nat) (m0 : Nat → List Nat) (d j : Nat),
      j ∈ build_out_map l k m0 d ↔
        j ∈ m0 d ∨ ∃ t, t < l.length ∧ j = k + t ∧ (l.getD t dGEdge).src_node = d := by
  intro l
  induction l with
  | nil =>
    intro k m0 d j
    simp [build_out_map]
  | cons e rest ih =>
    intro k m0 d j
    simp only [build_out_map]
    rw [ih]
    constructor
    · rintro (hm | ⟨t, ht, hjt, hsrc⟩)
      · by_cases hd : d = e.src_node
        · rw [if_pos hd] at hm
          rw [List.mem_append] at hm
          rcases hm with hm | hm
          · exact Or.inl hm
          · simp only [List.mem_singleton] at hm
            exact Or.inr ⟨0, by simp, by omega, by rw [List.getD_cons_zero]; exact hd.symm⟩
        · rw [if_neg hd] at hm
          exact Or.inl hm
      · exact Or.inr ⟨t + 1, by simp only [List.length_cons]; omega, by omega,
          by rw [List.getD_cons_succ]; exact hsrc⟩
    · rintro (hm | ⟨t, ht, hjt, hsrc⟩)
      · left
        by_cases hd : d = e.src_node
        · rw [if_pos hd, List.mem_append]
          exact Or.inl hm
        · rw [if_neg hd]
          exact hm
      · cases t with
        | zero =>
          left
          rw [List.getD_cons_zero] at hsrc
          rw [if_pos hsrc.symm, List.mem_append]
          right
          simp only [List.mem_singleton]
          omega
        | succ t' =>
          right
          rw [List.getD_cons_succ] at hsrc
          exact ⟨t', by simp only [List.length_cons] at ht; omega, by omega, hsrc⟩

theorem mem_insert_connections (i : Nat) :
    ∀ (L : List Nat) (s : Finset (Nat × Nat)) (x : Nat × Nat),
      x ∈ insert_connections i L s ↔ x ∈ s ∨ ∃ j ∈ L, x = (i, j) := by
  intro L
  induction L with
  | nil =>
    intro s x
    simp [insert_connections]
  | cons j rest ih =>
    intro s x
    simp only [insert_connections]
    rw [ih]
    simp only [Finset.mem_insert, List.mem_cons]
    constructor
    · rintro ((hx | hx) | ⟨j', hj', hx⟩)
      · exact Or.inr ⟨j, Or.inl rfl, hx⟩
      · exact Or.inl hx
      · exact Or.inr ⟨j', Or.inr hj', hx⟩
    · rintro (hx | ⟨j', hj' | hj', hx⟩)
      · exact Or.inl (Or.inr hx)
      · exact Or.inl (Or.inl (by rw [hx, hj']))
      · exact Or.inr ⟨j', hj', hx⟩

theorem mem_connect_all :
    ∀ (l : List GEdge) (k : Nat) (m : Nat → List Nat) (s : Finset (Nat × Nat))
      (x : Nat × Nat),
      x ∈ connect_all l k m s ↔
        x ∈ s ∨ ∃ t, t < l.length ∧
          ∃ j ∈ m ((l.getD t dGEdge).dst_node), x = (k + t, j) := by
  intro l
  induction l with
  | nil =>
    intro k m s x
    simp [connect_all]
  | cons e rest ih =>
    intro k m s x
    simp only [connect_all]
    rw [ih, mem_insert_connections]
    constructor
    · rintro ((hx | ⟨j, hj, hx⟩) | ⟨t, ht, j, hj, hx⟩)
      · exact Or.inl hx
      · exact Or.inr ⟨0, by simp, j, by rwa [List.getD_cons_zero], by simp [hx]⟩
      · exact Or.inr ⟨t + 1, by simp only [List.length_cons]; omega, j,
          by rwa [List.getD_cons_succ], by rw [hx]; congr 1; omega⟩
    · rintro (hx | ⟨t, ht, j, hj, hx⟩)
      · exact Or.inl (Or.inl hx)
      · cases t with
        | zero =>
          rw [List.getD_cons_zero] at hj
          exact Or.inl (Or.inr ⟨j, hj, by simp [hx]⟩)
        | succ t' =>
          rw [List.getD_cons_succ] at hj
          exact Or.inr ⟨t', by simp only [List.length_cons] at ht; omega, j, hj,
            by rw [hx]; congr 1; omega⟩

/-- C8: for every edge list, the collapse to a NodeGraph keeps, among all
edges sharing the same (src_node, dst_node) pair, exactly the one with the
highest type_count (on ties, the earliest encountered in list order): every
survivor is such a best edge, every pair occurring in the list has a
survivor, and no two survivors share a pair.  Each surviving edge becomes
one node, and the NodeGraph contains a directed connection (i, j) — stored
without multiplicity, in a set — exactly when surviving edge j's src_node
equals surviving edge i's dst_node. -/
theorem claim_C8 (edges : List GEdge) :
    (into_node_graph edges).nodes =
      (selected_survivors edges).map
        (fun ed => (⟨ed.length, ed.type_count⟩ : NodeInfo)) ∧
    (∀ g ∈ selected_survivors edges, ∃ i, IsBest edges (g.src_node, g.dst_node) i ∧
      edges.getD i dGEdge = g) ∧
    (∀ e0 ∈ edges, ∃ g ∈ selected_survivors edges,
      (g.src_node, g.dst_node) = (e0.src_node, e0.dst_node)) ∧
    (selected_survivors edges).Pairwise
      (fun a b => (a.src_node, a.dst_node) ≠ (b.src_node, b.dst_node)) ∧
    (∀ i j, (i, j) ∈ (into_node_graph edges).edges ↔
      i < (selected_survivors edges).length ∧
      j < (selected_survivors edges).length ∧
      ((selected_survivors edges).getD j dGEdge).src_node =
        ((selected_survivors edges).getD i dGEdge).dst_node) := by
  refine ⟨rfl, survivors_isBest edges, survivors_cover edges,
    survivors_pairwise edges, ?_⟩
  intro i j
  show (i, j) ∈ connect_all (selected_survivors edges) 0
      (build_out_map (selected_survivors edges) 0 (fun _ => [])) ∅ ↔ _
  rw [mem_connect_all]
  simp only [Finset.not_mem_empty, false_or]
  constructor
  · rintro ⟨t, ht, j', hj', hx⟩
    have hi : i = t := by
      have := congrArg Prod.fst hx
      simpa using this
    have hjj : j = j' := by
      have := congrArg Prod.snd hx
      simpa using this
    subst hi
    subst hjj
    rw [mem_build_out_map] at hj'
    rcases hj' with h | ⟨t2, ht2, hjt2, hsrc⟩
    · simp at h
    · have ht2j : t2 = j := by omega
      subst ht2j
      exact ⟨ht, ht2, hsrc⟩
  · rintro ⟨hi, hj, hsrc⟩
    refine ⟨i, hi, j, ?_, by simp⟩
    rw [mem_build_out_map]
    exact Or.inr ⟨j, hj, by omega, hsrc⟩

/-- Witness for C8 at the spec's own scenario: two edges with identical
(src, dst) = (0, 1) and type counts 1 and 3; the claim's coverage conjunct
applied to the first edge produces a survivor with that pair (and by the
survivor conjuncts it is the type-count-3 edge). -/
theorem claim_C8_witness :
    ∃ g ∈ selected_survivors
        [⟨0, 1, 1, 1, ⟨[]⟩⟩, ⟨0, 1, 1, 3, ⟨[]⟩⟩],
      (g.src_node, g.dst_node) =
        ((⟨0, 1, 1, 1, ⟨[]⟩⟩ : GEdge).src_node, (⟨0, 1, 1, 1, ⟨[]⟩⟩ : GEdge).dst_node) :=
  (claim_C8 [⟨0, 1, 1, 1, ⟨[]⟩⟩, ⟨0, 1, 1, 3, ⟨[]⟩⟩]).2.2.1
    ⟨0, 1, 1, 1, ⟨[]⟩⟩ (List.mem_cons_self _ _)

theorem mem_foldr_insert (x : Nat) :
    ∀ (l : List Nat) (acc : Finset Nat),
      x ∈ l.foldr insert acc ↔ x ∈ l ∨ x ∈ acc := by
  intro l
  induction l with
  | nil => intro acc; simp
  | cons a rest ih =>
    intro acc
    simp only [List.foldr_cons, Finset.mem_insert, List.mem_cons, ih]
    tauto

theorem mem_nodesOf (x : Nat) :
    ∀ (nb : List (List Nat)), x ∈ nodesOf nb ↔ ∃ l ∈ nb, x ∈ l := by
  intro nb
  induction nb with
  | nil => simp [nodesOf]
  | cons l0 rest ih =>
    simp only [nodesOf, List.foldr_cons] at ih ⊢
    rw [mem_foldr_insert]
    simp only [List.mem_cons, ih]
    constructor
    · rintro (hx | ⟨l, hl, hx⟩)
      · exact ⟨l0, Or.inl rfl, hx⟩
      · exact ⟨l, Or.inr hl, hx⟩
    · rintro ⟨l, hl | hl, hx⟩
      · exact Or.inl (hl ▸ hx)
      · exact Or.inr ⟨l, hl, hx⟩

theorem mem_getD_nodesOf (nb : List (List Nat)) (c x : Nat)
    (hx : x ∈ nb.getD c []) : x ∈ nodesOf nb := by
  rcases Nat.lt_or_ge c nb.length with h | h
  · rw [mem_nodesOf]
    refine ⟨nb.getD c [], ?_, hx⟩
    rw [List.getD_eq_getElem?_getD, List.getElem?_eq_getElem h]
    exact List.getElem_mem h
  · rw [List.getD_eq_getElem?_getD, List.getElem?_eq_none h] at hx
    cases hx

theorem length_le_maxNb :
    ∀ (nb : List (List Nat)) (l : List Nat), l ∈ nb → l.length ≤ maxNb nb := by
  intro nb
  induction nb with
  | nil => intro l hl; cases hl
  | cons l0 rest ih =>
    intro l hl
    simp only [List.mem_cons] at hl
    simp only [maxNb, List.foldr_cons]
    rcases hl with hl | hl
    · rw [hl]
      exact Nat.le_max_left _ _
    · exact Nat.le_trans (ih l hl) (Nat.le_max_right _ _)

theorem getD_length_le_maxNb (nb : List (List Nat)) (c : Nat) :
    (nb.getD c []).length ≤ maxNb nb := by
  rcases Nat.lt_or_ge c nb.length with h | h
  · refine length_le_maxNb nb _ ?_
    rw [List.getD_eq_getElem?_getD, List.getElem?_eq_getElem h]
    exact List.getElem_mem h
  · rw [List.getD_eq_getElem?_getD, List.getElem?_eq_none h]
    exact Nat.zero_le _

theorem unvisited_count_insert_lt (nb : List (List Nat)) (vis : Finset Nat) (x : Nat)
    (hx : x ∈ nodesOf nb) (hvis : x ∉ vis) :
    unvisited_count nb (insert x vis) < unvisited_count nb vis := by
  apply Finset.card_lt_card
  rw [Finset.ssubset_def]
  constructor
  · intro y hy
    rw [Finset.mem_filter] at hy ⊢
    refine ⟨hy.1, fun hyv => hy.2 (Finset.mem_insert_of_mem hyv)⟩
  · intro hsup
    have hxin : x ∈ (nodesOf nb).filter (fun y => y ∉ vis) :=
      Finset.mem_filter.mpr ⟨hx, hvis⟩
    have := hsup hxin
    rw [Finset.mem_filter] at this
    exact this.2 (Finset.mem_insert_self x vis)

theorem unvisited_count_le_card (nb : List (List Nat)) (vis : Finset Nat) :
    unvisited_count nb vis ≤ (nodesOf nb).card :=
  Finset.card_filter_le _ _

theorem reaches_iff (nb : List (List Nat)) (lengths : List ℚ) (targets : Finset Nat)
    (c : Nat) (len : ℚ) (vis : Finset Nat) (p : FoundPath) :
    Reaches nb lengths targets c len vis p ↔
      ReachesVia nb lengths targets (nb.getD c []) len vis p := by
  constructor
  · intro h
    cases h with
    | hit hmem htgt => exact ⟨_, hmem, Or.inl ⟨htgt, rfl⟩⟩
    | step hmem htgt hvis hr => exact ⟨_, hmem, Or.inr ⟨htgt, hvis, hr⟩⟩
  · rintro ⟨ni, hmem, (⟨htgt, rfl⟩ | ⟨htgt, hvis, hr⟩)⟩
    · exact Reaches.hit hmem htgt
    · exact Reaches.step hmem htgt hvis hr

theorem reachesVia_cons (nb : List (List Nat)) (lengths : List ℚ)
    (targets : Finset Nat) (ni : Nat) (rest : List Nat) (len : ℚ)
    (vis : Finset Nat) (p : FoundPath) :
    ReachesVia nb lengths targets (ni :: rest) len vis p ↔
      ((ni ∈ targets ∧ p = ⟨ni, len⟩) ∨
        (ni ∉ targets ∧ ni ∉ vis ∧
          Reaches nb lengths targets ni (len + lengths.getD ni 0) (insert ni vis) p)) ∨
      ReachesVia nb lengths targets rest len vis p := by
  unfold ReachesVia
  constructor
  · rintro ⟨x, hx, hcase⟩
    simp only [List.mem_cons] at hx
    rcases hx with hx | hx
    · subst hx
      exact Or.inl hcase
    · exact Or.inr ⟨x, hx, hcase⟩
  · rintro (hcase | ⟨x, hx, hcase⟩)
    · exact ⟨ni, List.mem_cons_self _ _, hcase⟩
    · exact ⟨x, List.mem_cons_of_mem _ hx, hcase⟩

theorem pfAux_mem (nb : List (List Nat)) (lengths : List ℚ) (targets : Finset Nat) :
    ∀ (fuel : Nat) (L : List Nat) (len : ℚ) (vis : Finset Nat)
      (paths : List FoundPath) (p : FoundPath),
      (∀ x ∈ L, x ∈ nodesOf nb) →
      L.length + unvisited_count nb vis * (maxNb nb + 1) ≤ fuel →
      (p ∈ pfAux nb lengths targets fuel L len vis paths ↔
        p ∈ paths ∨ ReachesVia nb lengths targets L len vis p) := by
  intro fuel
  induction fuel with
  | zero =>
    intro L len vis paths p hL hfuel
    have hnil : L = [] := List.eq_nil_of_length_eq_zero (by omega)
    subst hnil
    simp [pfAux, ReachesVia]
  | succ fuel ih =>
    intro L len vis paths p hL hfuel
    cases L with
    | nil => simp [pfAux, ReachesVia]
    | cons ni rest =>
      simp only [pfAux]
      have hrest : ∀ x ∈ rest, x ∈ nodesOf nb :=
        fun x hx => hL x (List.mem_cons_of_mem _ hx)
      have hni : ni ∈ nodesOf nb := hL ni (List.mem_cons_self _ _)
      have hrestfuel : rest.length + unvisited_count nb vis * (maxNb nb + 1) ≤ fuel := by
        simp only [List.length_cons] at hfuel
        omega
      rw [ih rest len vis _ p hrest hrestfuel, reachesVia_cons]
      by_cases htgt : ni ∈ targets
      · rw [if_pos htgt]
        simp only [List.mem_append, List.mem_singleton]
        tauto
      · rw [if_neg htgt]
        by_cases hvis : ni ∈ vis
        · rw [if_neg (by simpa using hvis)]
          tauto
        · rw [if_pos (by simpa using hvis)]
          have hgetD : ∀ x ∈ nb.getD ni [], x ∈ nodesOf nb :=
            fun x hx => mem_getD_nodesOf nb ni x hx
          have hdec := unvisited_count_insert_lt nb vis ni hni hvis
          have hlen := getD_length_le_maxNb nb ni
          have hmul' : unvisited_count nb (insert ni vis) * (maxNb nb + 1) +
              (maxNb nb + 1) ≤ unvisited_count nb vis * (maxNb nb + 1) := by
            rw [← Nat.succ_mul]
            exact Nat.mul_le_mul_right _ hdec
          have hrecfuel : (nb.getD ni []).length +
              unvisited_count nb (insert ni vis) * (maxNb nb + 1) ≤ fuel := by
            simp only [List.length_cons] at hfuel
            omega
          rw [ih (nb.getD ni []) (len + lengths.getD ni 0) (insert ni vis) paths p
            hgetD hrecfuel, reaches_iff]
          tauto

theorem path_finder_mem (nb : List (List Nat)) (lengths : List ℚ)
    (targets : Finset Nat) (c : Nat) (len : ℚ) (vis : Finset Nat)
    (paths : List FoundPath) (p : FoundPath) :
    p ∈ path_finder nb lengths targets c len vis paths ↔
      p ∈ paths ∨ Reaches nb lengths targets c len vis p := by
  have hbound : (nb.getD c []).length + unvisited_count nb vis * (maxNb nb + 1) ≤
      (nb.getD c []).length + ((nodesOf nb).card + 1) * (maxNb nb + 1) :=
    Nat.add_le_add_left (Nat.mul_le_mul_right _
      (Nat.le_trans (unvisited_count_le_card nb vis) (Nat.le_succ _))) _
  rw [path_finder, pfAux_mem nb lengths targets _ _ len vis paths p
    (fun x hx => mem_getD_nodesOf nb c x hx) hbound, reaches_iff]

theorem lookup_cons_eval_sn (k k' : Nat) (v : StructuredNode)
    (m : List (Nat × StructuredNode)) :
    List.lookup k' ((k, v) :: m) = if k' = k then some v else List.lookup k' m := by
  rw [List.lookup_cons]
  by_cases h : k' = k
  · rw [if_pos h]
    have hb : (k' == k) = true := beq_iff_eq.mpr h
    rw [hb]
  · rw [if_neg h]
    have hb : (k' == k) = false := beq_eq_false_iff_ne.mpr h
    rw [hb]

theorem lookup_map_graph (f : Nat → StructuredNode) :
    ∀ (l : List Nat) (i : Nat) (v : StructuredNode),
      List.lookup i (l.map (fun q => (q, f q))) = some v → v = f i := by
  intro l
  induction l with
  | nil => intro i v h; cases h
  | cons q rest ih =>
    intro i v h
    rw [List.map_cons, lookup_cons_eval_sn] at h
    by_cases hiq : i = q
    · rw [if_pos hiq] at h
      rw [hiq]
      exact (Option.some.inj h).symm
    · rw [if_neg hiq] at h
      exact ih i v h

/-- C9: for every NodeGraph and threshold, a structured node recorded for a
processing node `pnode` holds exactly the paths the depth-first search can
reach: a pair `(target, accumulated length)` is recorded if and only if the
search, descending only through connective (non-processing) unvisited
nodes — each marked visited for the duration of its own branch only, so
sibling branches continue independently — and accumulating the traversed
connective nodes' lengths from 0, reaches the target as a direct neighbour
and stops that branch (the `Reaches` specification).  In particular two
directly adjacent processing nodes yield a recorded path of length 0, and
the chain processing → connective(length 1/2) → processing records a path
of length 1/2 between the two processing nodes. -/
theorem claim_C9 :
    (∀ (g : NodeGraph) (th pnode : Nat) (snode : StructuredNode),
      (g.into_structured_graph th).find pnode = some snode →
      ∀ p, p ∈ snode.connections ↔
        Reaches (neighborhood_of g) (g.nodes.map (fun n => n.length))
          (processing_nodes_of g th) pnode 0 ∅ p) ∧
    (∀ (g : NodeGraph) (th i j : Nat) (snode : StructuredNode),
      j ∈ processing_nodes_of g th →
      j ∈ (neighborhood_of g).getD i [] →
      (g.into_structured_graph th).find i = some snode →
      (⟨j, 0⟩ : FoundPath) ∈ snode.connections) ∧
    (∃ snode, (NodeGraph.into_structured_graph
        ⟨[⟨1, 1⟩, ⟨1/2, 0⟩, ⟨1, 1⟩], {(0, 1), (1, 2)}⟩ 1).find 0 = some snode ∧
      (⟨2, 1/2⟩ : FoundPath) ∈ snode.connections) := by
  have hgen : ∀ (g : NodeGraph) (th pnode : Nat) (snode : StructuredNode),
      (g.into_structured_graph th).find pnode = some snode →
      snode = ⟨(g.nodes.getD pnode ⟨0, 0⟩).length,
        (g.nodes.getD pnode ⟨0, 0⟩).type_count,
        path_finder (neighborhood_of g) (g.nodes.map (fun n => n.length))
          (processing_nodes_of g th) pnode 0 ∅ []⟩ :=
    fun g th pnode snode h => lookup_map_graph _ _ pnode snode h
  have hmem : ∀ (g : NodeGraph) (th pnode : Nat) (snode : StructuredNode),
      (g.into_structured_graph th).find pnode = some snode →
      ∀ p, p ∈ snode.connections ↔
        Reaches (neighborhood_of g) (g.nodes.map (fun n => n.length))
          (processing_nodes_of g th) pnode 0 ∅ p := by
    intro g th pnode snode h p
    rw [hgen g th pnode snode h]
    show p ∈ path_finder (neighborhood_of g) (g.nodes.map (fun n => n.length))
        (processing_nodes_of g th) pnode 0 ∅ [] ↔ _
    rw [path_finder_mem]
    simp
  refine ⟨hmem, ?_, ?_⟩
  · intro g th i j snode hjproc hjnb h
    rw [hmem g th i snode h]
    exact Reaches.hit hjnb hjproc
  · have hsn : (NodeGraph.into_structured_graph
        ⟨[⟨1, 1⟩, ⟨1/2, 0⟩, ⟨1, 1⟩], {(0, 1), (1, 2)}⟩ 1).find 0 =
        some ⟨(1 : ℚ), 1,
          path_finder (neighborhood_of ⟨[⟨1, 1⟩, ⟨1/2, 0⟩, ⟨1, 1⟩], {(0, 1), (1, 2)}⟩)
            ((NodeGraph.mk [⟨1, 1⟩, ⟨1/2, 0⟩, ⟨1, 1⟩] {(0, 1), (1, 2)}).nodes.map
              (fun n => n.length))
            (processing_nodes_of ⟨[⟨1, 1⟩, ⟨1/2, 0⟩, ⟨1, 1⟩], {(0, 1), (1, 2)}⟩ 1)
            0 0 ∅ []⟩ := rfl
    refine ⟨_, hsn, ?_⟩
    rw [hmem _ 1 0 _ hsn]
    have hval : (0 : ℚ) +
        ((NodeGraph.mk [⟨1, 1⟩, ⟨1/2, 0⟩, ⟨1, 1⟩] {(0, 1), (1, 2)}).nodes.map
          (fun n => n.length)).getD 1 0 = 1/2 := by
      show (0 : ℚ) + 1/2 = 1/2
      norm_num
    have hr : Reaches
        (neighborhood_of ⟨[⟨1, 1⟩, ⟨1/2, 0⟩, ⟨1, 1⟩], {(0, 1), (1, 2)}⟩)
        ((NodeGraph.mk [⟨1, 1⟩, ⟨1/2, 0⟩, ⟨1, 1⟩] {(0, 1), (1, 2)}).nodes.map
          (fun n => n.length))
        (processing_nodes_of ⟨[⟨1, 1⟩, ⟨1/2, 0⟩, ⟨1, 1⟩], {(0, 1), (1, 2)}⟩ 1) 0 0 ∅
        ⟨2, (0 : ℚ) +
          ((NodeGraph.mk [⟨1, 1⟩, ⟨1/2, 0⟩, ⟨1, 1⟩] {(0, 1), (1, 2)}).nodes.map
            (fun n => n.length)).getD 1 0⟩ :=
      Reaches.step (by decide) (by decide) (by decide)
        (Reaches.hit (by decide) (by decide))
    have hgoal : (⟨2, (1 : ℚ)/2⟩ : FoundPath) = ⟨2, (0 : ℚ) +
        ((NodeGraph.mk [⟨1, 1⟩, ⟨1/2, 0⟩, ⟨1, 1⟩] {(0, 1), (1, 2)}).nodes.map
          (fun n => n.length)).getD 1 0⟩ := by
      rw [hval]
    rw [hgoal]
    exact hr

/-- Witness for C9 at a two-node graph whose two collapsed nodes are both
processing and directly adjacent: the adjacency conjunct records the
length-0 path. -/
theorem claim_C9_witness :
    (⟨1, 0⟩ : FoundPath) ∈ (⟨1, 1, [⟨1, 0⟩]⟩ : StructuredNode).connections :=
  claim_C9.2.1 ⟨[⟨1, 1⟩, ⟨1, 1⟩], {(0, 1)}⟩ 1 0 1 ⟨1, 1, [⟨1, 0⟩]⟩
    (by decide) (by decide) (by decide)
